import Mathlib

/-!
Verification development for the mcdata-rs library (a version-aware
Minecraft data access crate).  The definitions below are a shallow
embedding of the crate's pure logic:

* src/version.rs   — version records, registry construction, resolution;
* src/features.rs  — feature-support evaluation over version ranges;
* src/indexer.rs   — block / entity / collision-shape index construction;
* src/cached_data.rs — version comparison methods on a data snapshot;
* src/paths.rs, src/lib.rs — the failure-memoizing caches and the
  process-wide data cache, modelled as explicit state machines (file and
  network I/O is abstracted as input data passed to the state machine).

Rust HashMaps are modelled as association lists with unique keys
(insert overwrites).  Rust u32 arithmetic is modelled on Nat with an
explicit mod 2^32 at the one site that can wrap (the block state-id
synthesis); i32 values that are never subject to overflow are modelled
as Int.  Rust stable sort_by is modelled by List.insertionSort (also a
stable sort, hence extensionally identical); for sort_unstable_by only
the comparator-sorted-permutation contract is relied upon.
String primitives are re-implemented over the character list of a
String so that all definitions evaluate inside the kernel.
-/

deriving instance DecidableEq for Except

namespace McdataRs

/-! ## String helpers (kernel-computable counterparts of the Rust string ops) -/

/-- Counterpart of Rust str::starts_with. -/
def strStartsWith (s t : String) : Bool :=
  t.data.isPrefixOf s.data

/-- Counterpart of Rust slicing off the first n characters (used after a
prefix test, where the stripped text is ASCII). -/
def strDrop (s : String) (n : Nat) : String :=
  ⟨s.data.drop n⟩

/-- Counterpart of Rust str::ends_with. -/
def strEndsWith (s t : String) : Bool :=
  t.data.isSuffixOf s.data

/-- Counterpart of Rust slicing off the last n characters. -/
def strDropRight (s : String) (n : Nat) : String :=
  ⟨s.data.take (s.data.length - n)⟩

/-- Counterpart of Rust str::contains(char). -/
def strContainsChar (s : String) (c : Char) : Bool :=
  s.data.contains c

/-- Accumulate decimal digits; any non-digit character fails the parse. -/
def parseDigits : List Char → Nat → Option Nat
  | [], acc => some acc
  | c :: rest, acc =>
    if c.isDigit then parseDigits rest (acc * 10 + (c.toNat - 48)) else none

/-- Counterpart of Rust str::parse::<u32>() (an optional leading plus sign,
then decimal digits; the u32 overflow failure of the Rust parser is not
modelled — no claim depends on strings that large). -/
def parseNatStr (s : String) : Option Nat :=
  match s.data with
  | [] => none
  | '+' :: rest => if rest = [] then none else parseDigits rest 0
  | cs => parseDigits cs 0

/-- Counterpart of Rust str::parse::<i32>() (optional sign, then digits;
the i32 overflow failure is not modelled — no claim depends on it). -/
def parseIntStr (s : String) : Option Int :=
  match s.data with
  | [] => none
  | '-' :: rest =>
    if rest = [] then none else (parseDigits rest 0).map (fun n => -(n : Int))
  | '+' :: rest => if rest = [] then none else (parseDigits rest 0).map Int.ofNat
  | cs => (parseDigits cs 0).map Int.ofNat

/-! ## Association-list maps (the model of Rust HashMap)

Insertion overwrites in place, so a map built only through upsertKey has
unique keys; iteration order of the Rust HashMap is unspecified, so no
theorem below depends on the order of the pair list beyond its key-value
contents. -/

/-- Lookup in an association list (model of HashMap::get). -/
def lookupKey {α β : Type} [DecidableEq α] : List (α × β) → α → Option β
  | [], _ => none
  | (k, v) :: rest, key => if k = key then some v else lookupKey rest key

/-- Insert-or-overwrite in an association list (model of HashMap::insert). -/
def upsertKey {α β : Type} [DecidableEq α] : List (α × β) → α → β → List (α × β)
  | [], key, v => [(key, v)]
  | (k, w) :: rest, key, v =>
    if k = key then (key, v) :: rest else (k, w) :: upsertKey rest key v

theorem lookupKey_upsertKey_self {α β : Type} [DecidableEq α]
    (m : List (α × β)) (k : α) (v : β) : lookupKey (upsertKey m k v) k = some v := by
  induction m with
  | nil => simp [upsertKey, lookupKey]
  | cons p rest ih =>
    obtain ⟨k1, v1⟩ := p
    by_cases h : k1 = k <;> simp [upsertKey, lookupKey, h, ih]

theorem lookupKey_upsertKey_ne {α β : Type} [DecidableEq α]
    (m : List (α × β)) (k key : α) (v : β) (h : k ≠ key) :
    lookupKey (upsertKey m k v) key = lookupKey m key := by
  induction m with
  | nil => simp [upsertKey, lookupKey, h]
  | cons p rest ih =>
    obtain ⟨k1, v1⟩ := p
    by_cases h1 : k1 = k
    · subst h1
      simp [upsertKey, lookupKey, h]
    · by_cases h2 : k1 = key <;> simp [upsertKey, lookupKey, h1, h2, Ne.symm h, ih]

theorem lookupKey_isSome_upsertKey {α β : Type} [DecidableEq α]
    (m : List (α × β)) (k key : α) (v : β) (h : (lookupKey m key).isSome) :
    (lookupKey (upsertKey m k v) key).isSome := by
  by_cases hk : k = key
  · subst hk; simp [lookupKey_upsertKey_self]
  · rw [lookupKey_upsertKey_ne m k key v hk]; exact h

theorem mem_of_lookupKey {α β : Type} [DecidableEq α]
    (m : List (α × β)) (key : α) (v : β) (h : lookupKey m key = some v) :
    (key, v) ∈ m := by
  induction m with
  | nil => simp [lookupKey] at h
  | cons p rest ih =>
    obtain ⟨k1, v1⟩ := p
    by_cases h1 : k1 = key
    · subst h1
      simp [lookupKey] at h
      simp [h]
    · simp [lookupKey, h1] at h
      exact List.mem_cons_of_mem _ (ih h)

theorem mem_upsertKey {α β : Type} [DecidableEq α]
    (m : List (α × β)) (k : α) (v : β) (p : α × β) (h : p ∈ upsertKey m k v) :
    p ∈ m ∨ p = (k, v) := by
  induction m with
  | nil => simp [upsertKey] at h; simp [h]
  | cons q rest ih =>
    obtain ⟨k1, v1⟩ := q
    by_cases h1 : k1 = k
    · subst h1
      simp [upsertKey] at h
      rcases h with h | h
      · right; simp [h]
      · left; exact List.mem_cons_of_mem _ h
    · simp [upsertKey, h1] at h
      rcases h with h | h
      · left; simp [h]
      · rcases ih h with h2 | h2
        · left; exact List.mem_cons_of_mem _ h2
        · right; exact h2

/-! ## Edition and Version (src/version.rs) -/

/-- The Minecraft edition (PC/Java or Bedrock); src/version.rs. -/
inductive Edition : Type
  | pc
  | bedrock
deriving DecidableEq, Repr

/-- Edition::path_prefix — the string token used in paths and cache keys. -/
def editionToken : Edition → String
  | .pc => "pc"
  | .bedrock => "bedrock"

/-- Debug rendering of an edition, as produced by the Rust derive(Debug). -/
def editionName : Edition → String
  | .pc => "Pc"
  | .bedrock => "Bedrock"

/-- A specific Minecraft version with associated metadata; src/version.rs.
The field named version is the protocol version number. -/
structure Version : Type where
  minecraftVersion : String
  majorVersion : String
  version : Int
  dataVersion : Int
  edition : Edition
  releaseType : String
deriving DecidableEq, Repr

/-- PartialOrd for Version: versions of different editions are incomparable
(None); otherwise the data versions are compared. -/
def Version.cmpOpt (a b : Version) : Option Ordering :=
  if a.edition = b.edition then some (compare a.dataVersion b.dataVersion) else none

/-- Ord for Version: the partial comparison, with a cross-edition pair
falling back to Ordering.eq (the Rust impl logs a warning and treats the
two as equal for sorting purposes). -/
def Version.cmpTotal (a b : Version) : Ordering :=
  (Version.cmpOpt a b).getD Ordering.eq

/-- PartialOrd::ge as used by the Rust >= operator on Version. -/
def Version.pge (a b : Version) : Bool :=
  match Version.cmpOpt a b with
  | some Ordering.gt => true
  | some Ordering.eq => true
  | _ => false

/-- PartialOrd::le as used by the Rust <= operator on Version. -/
def Version.ple (a b : Version) : Bool :=
  match Version.cmpOpt a b with
  | some Ordering.lt => true
  | some Ordering.eq => true
  | _ => false

/-- PartialOrd::lt as used by the Rust < operator on Version. -/
def Version.plt (a b : Version) : Bool :=
  match Version.cmpOpt a b with
  | some Ordering.lt => true
  | _ => false

/-! ## Errors (src/error.rs)

Structured payloads (paths, io/serde causes) are carried as the strings
they display as; errMessage renders the thiserror display format of each
kind (quotation decorations are dropped, the textual skeleton and the
embedded payloads are kept). -/

/-- The error taxonomy of src/error.rs. -/
inductive McDataError : Type
  | invalidVersion (s : String)
  | versionNotFound (mcVersion majorVersion : String) (edition : Edition)
  | dataPathNotFound (mcVersion : String) (edition : Edition) (dataKey : String)
  | dataFileNotFound (dataKey path : String)
  | ioError (path cause : String)
  | jsonParseError (path cause : String)
  | cacheDirNotFound
  | downloadError (msg : String)
  | archiveError (msg : String)
  | downloadVerificationFailed (path : String)
  | internal (msg : String)
  | cachedError (msg : String)
deriving DecidableEq, Repr

/-- Display text of each error kind (the thiserror format strings). -/
def errMessage : McDataError → String
  | .invalidVersion s => "Version string " ++ s ++ " is invalid or unsupported"
  | .versionNotFound mcv maj ed =>
    "Version " ++ mcv ++ " (major: " ++ maj ++ ") not found for edition " ++ editionName ed
  | .dataPathNotFound mcv ed key =>
    "Data key " ++ key ++ " not found in dataPaths.json for version " ++ mcv
      ++ " (" ++ editionName ed ++ ")"
  | .dataFileNotFound key path =>
    "Data file not found for key " ++ key ++ " at expected path pattern: " ++ path
  | .ioError path cause => "I/O error accessing path " ++ path ++ ": " ++ cause
  | .jsonParseError path cause => "Failed to parse JSON file " ++ path ++ ": " ++ cause
  | .cacheDirNotFound => "Could not determine a valid cache directory for application data"
  | .downloadError m => "Failed to download minecraft-data: " ++ m
  | .archiveError m => "Failed to process downloaded archive: " ++ m
  | .downloadVerificationFailed p => "Failed to verify data after download/extraction in " ++ p
  | .internal m => "Internal error: " ++ m
  | .cachedError m => "Cached operation failed previously: " ++ m

/-! ## Version registry (src/version.rs)

File and network I/O is abstracted away: the parsed contents of the two
protocolVersions.json files are inputs (a Raws record), and everything
from there on is the pure logic of load_and_index_versions,
get_version_data, resolve_version, parse_version_string and
get_supported_versions. -/

/-- A raw entry of protocolVersions.json (src/structs.rs,
ProtocolVersionInfo).  The field named version is the protocol number. -/
structure ProtocolVersionInfo : Type where
  minecraftVersion : String
  version : Int
  dataVersion : Option Int
  usesNetty : Bool
  majorVersion : String
  releaseType : String
deriving DecidableEq, Repr

/-- The raw protocolVersions.json contents for both editions (the I/O
input of the registry loader). -/
structure Raws : Type where
  pc : List ProtocolVersionInfo
  bedrock : List ProtocolVersionInfo
deriving DecidableEq, Repr

/-- Selects the raw list of an edition. -/
def Raws.get (R : Raws) : Edition → List ProtocolVersionInfo
  | .pc => R.pc
  | .bedrock => R.bedrock

/-- The sort at the top of load_and_index_versions:
raw_versions.sort_by(|a, b| b.version.cmp(&a.version)) — a stable sort,
descending by protocol number. -/
def sortByProtocolDesc (l : List ProtocolVersionInfo) : List ProtocolVersionInfo :=
  l.insertionSort (fun a b => b.version ≤ a.version)

/-- The synthetic data-version assignment: after the descending protocol
sort, the entry at index i that lacks a dataVersion receives -i. -/
def synthesizeDataVersions (l : List ProtocolVersionInfo) : List ProtocolVersionInfo :=
  (sortByProtocolDesc l).enum.map
    (fun p => if p.2.dataVersion.isNone then { p.2 with dataVersion := some (-(p.1 : Int)) } else p.2)

/-- The Version built from a raw entry whose dataVersion is known. -/
def mkVersion (ed : Edition) (r : ProtocolVersionInfo) (dv : Int) : Version :=
  { minecraftVersion := r.minecraftVersion
    majorVersion := r.majorVersion
    version := r.version
    dataVersion := dv
    edition := ed
    releaseType := r.releaseType }

/-- The indexed registry of one edition (src/version.rs, VersionData). -/
structure VersionData : Type where
  byMinecraftVersion : List (String × Version)
  byMajorVersion : List (String × List Version)
  byProtocolVersion : List (Int × List Version)
deriving DecidableEq, Repr

/-- The empty registry accumulator. -/
def emptyVersionData : VersionData :=
  { byMinecraftVersion := [], byMajorVersion := [], byProtocolVersion := [] }

/-- The and_modify condition on the major-version key of
by_minecraft_version: upgrade when the candidate is newer and a release,
or newer while the existing entry is not a release. -/
def majorCond (v existing : Version) : Bool :=
  (decide (existing.dataVersion < v.dataVersion) && (v.releaseType == "release"))
    || (decide (existing.dataVersion < v.dataVersion) && !(existing.releaseType == "release"))

/-- The entry(major).and_modify(..).or_insert(..) step on
by_minecraft_version. -/
def majorUpdate (m : List (String × Version)) (k : String) (v : Version) :
    List (String × Version) :=
  match lookupKey m k with
  | some existing => if majorCond v existing then upsertKey m k v else m
  | none => upsertKey m k v

/-- The entry(key).or_default().push(v) step on a map of version lists. -/
def pushVersion {α : Type} [DecidableEq α] (m : List (α × List Version)) (k : α)
    (v : Version) : List (α × List Version) :=
  match lookupKey m k with
  | some vs => upsertKey m k (vs ++ [v])
  | none => upsertKey m k [v]

/-- One iteration of the indexing loop of load_and_index_versions:
insert under the full version string, update the major-version key,
append to by_major_version and to by_protocol_version. -/
def buildStep (ed : Edition) (acc : VersionData) (r : ProtocolVersionInfo) (dv : Int) :
    VersionData :=
  let v := mkVersion ed r dv
  { byMinecraftVersion := majorUpdate (upsertKey acc.byMinecraftVersion r.minecraftVersion v)
      r.majorVersion v
    byMajorVersion := pushVersion acc.byMajorVersion r.majorVersion v
    byProtocolVersion := pushVersion acc.byProtocolVersion r.version v }

/-- The indexing loop, with the ok_or_else check that every entry has a
data version by now (after synthesizeDataVersions this never fires). -/
def indexEntries (ed : Edition) : List ProtocolVersionInfo → VersionData →
    Except McDataError VersionData
  | [], acc => .ok acc
  | r :: rest, acc =>
    match r.dataVersion with
    | none => .error (.internal ("Missing dataVersion for " ++ r.minecraftVersion))
    | some dv => indexEntries ed rest (buildStep ed acc r dv)

/-- The per-list sort at the end of load_and_index_versions:
sort_unstable_by(|a, b| b.cmp(a)), newest (largest data version) first;
b.cmp(a) uses the total Ord of Version. -/
def sortVersionsDesc (vs : List Version) : List Version :=
  vs.insertionSort (fun a b => Version.cmpTotal b a ≠ Ordering.gt)

/-- The final sorting pass over the two list-valued indexes. -/
def sortVersionLists (d : VersionData) : VersionData :=
  { d with
    byMajorVersion := d.byMajorVersion.map (fun p => (p.1, sortVersionsDesc p.2))
    byProtocolVersion := d.byProtocolVersion.map (fun p => (p.1, sortVersionsDesc p.2)) }

/-- The pure part of load_and_index_versions, applied to the parsed file
contents: synthesize missing data versions, index every entry, sort the
list-valued indexes. -/
def loadAndIndexVersions (ed : Edition) (raws : List ProtocolVersionInfo) :
    Except McDataError VersionData :=
  (indexEntries ed (synthesizeDataVersions raws) emptyVersionData).map sortVersionLists

/-- get_version_data: the registry for an edition, with a load failure
wrapped into the Internal kind exactly as the memoized cache re-surfaces
it (the cache itself is modelled separately as a state machine below;
this is the per-call result, which is the same on every call). -/
def getVersionDataE (R : Raws) (ed : Edition) : Except McDataError VersionData :=
  match loadAndIndexVersions ed (R.get ed) with
  | .ok d => .ok d
  | .error e => .error (.internal ("Failed to load protocol versions for " ++ editionName ed
      ++ " during initialization: " ++ errMessage e))

/-- parse_version_string: strip the optional pc_ or bedrock_ token and
default to the PC edition (the Rust function returns Result but never
fails, so it is modelled as a plain pair). -/
def parseVersionString (s : String) : Edition × String :=
  if strStartsWith s "pc_" then (.pc, strDrop s 3)
  else if strStartsWith s "bedrock_" then (.bedrock, strDrop s 8)
  else (.pc, s)

/-- Step 3 of resolve_version: the by_major_version lookup, newest first;
on a miss the whole resolution fails with InvalidVersion of the original
input string. -/
def resolveByMajor (d : VersionData) (s part : String) : Except McDataError Version :=
  match lookupKey d.byMajorVersion part with
  | some versions =>
    match versions.head? with
    | some newest => .ok newest
    | none => .error (.invalidVersion s)
  | none => .error (.invalidVersion s)

/-- Step 2 of resolve_version: parse the version part as a protocol
number, prefer the first release in the (descending) list, else the
first entry; fall through to the major lookup when anything is missing. -/
def resolveByProtocol (d : VersionData) (s part : String) : Except McDataError Version :=
  match parseIntStr part with
  | some n =>
    match lookupKey d.byProtocolVersion n with
    | some versions =>
      match versions.find? (fun v => v.releaseType == "release") with
      | some best => .ok best
      | none =>
        match versions.head? with
        | some best => .ok best
        | none => resolveByMajor d s part
    | none => resolveByMajor d s part
  | none => resolveByMajor d s part

/-- resolve_version (src/version.rs): direct by_minecraft_version lookup
guarded by the exact-or-major match, then protocol number, then major
series. -/
def resolveVersion (R : Raws) (s : String) : Except McDataError Version :=
  let ed := (parseVersionString s).1
  let part := (parseVersionString s).2
  match getVersionDataE R ed with
  | .error e => .error e
  | .ok d =>
    match lookupKey d.byMinecraftVersion part with
    | some v =>
      if v.minecraftVersion = part ∨ v.majorVersion = part then .ok v
      else resolveByProtocol d s part
    | none => resolveByProtocol d s part

/-! get_supported_versions and its version-string comparator. -/

/-- Comparison of implicit zero padding against the remaining parts of
the longer list (the tail of the loop over 0..max(len_a, len_b) in
get_supported_versions once the shorter list is exhausted). -/
def cmpZerosAgainst : List Nat → Ordering
  | [] => .eq
  | b :: bs =>
    match compare 0 b with
    | .eq => cmpZerosAgainst bs
    | o => o

/-- Lexicographic comparison of numeric part lists, padding the shorter
list with zeros (the loop over 0..max(len_a, len_b) in
get_supported_versions). -/
def cmpPartList : List Nat → List Nat → Ordering
  | [], ys => cmpZerosAgainst ys
  | a :: xs, [] =>
    match compare a 0 with
    | .eq => cmpPartList xs []
    | o => o
  | a :: xs, b :: bs =>
    match compare a b with
    | .eq => cmpPartList xs bs
    | o => o

/-- Splits a string at the dots, keeping empty pieces (Rust split('.')). -/
def splitDotAux : List Char → List Char → List String
  | [], cur => [⟨cur.reverse⟩]
  | c :: rest, cur =>
    if c = '.' then (⟨cur.reverse⟩ : String) :: splitDotAux rest []
    else splitDotAux rest (c :: cur)

/-- Rust str::split('.') collected to a list. -/
def splitOnDot (s : String) : List String :=
  splitDotAux s.data []

/-- The numeric parts of a version string; a part that does not parse as
u32 counts as 0 (parts_x.get(i).cloned().flatten().unwrap_or(0)). -/
def versionParts (s : String) : List Nat :=
  (splitOnDot s).map (fun p => (parseNatStr p).getD 0)

/-- The comparator of get_supported_versions. -/
def verStrCmp (a b : String) : Ordering :=
  cmpPartList (versionParts a) (versionParts b)

/-- The sort order induced by the comparator (a before b when the
comparator does not say Greater). -/
def verStrLe (a b : String) : Prop :=
  verStrCmp a b ≠ Ordering.gt

instance : DecidableRel verStrLe :=
  fun s t => inferInstanceAs (Decidable (verStrCmp s t ≠ Ordering.gt))

/-- get_supported_versions: every stored Version whose minecraft_version
contains a dot contributes that string (the filter inspects the stored
value, not the map key), and the list is sorted by the component-wise
numeric comparator.  The Rust sort_by is stable; List.insertionSort is
the stable sort of the embedding. -/
def getSupportedVersionsE (R : Raws) (ed : Edition) : Except McDataError (List String) :=
  match getVersionDataE R ed with
  | .error e => .error e
  | .ok d =>
    let versions := ((d.byMinecraftVersion.map Prod.snd).filter
      (fun v => strContainsChar v.minecraftVersion '.')).map (fun v => v.minecraftVersion)
    .ok (versions.insertionSort verStrLe)

/-! ## Feature engine (src/features.rs)

The features.json contents are an input (the feature list of the target
edition); version-range checks resolve strings through the registry
embedded above.  The resolved-version cache of the Rust code memoizes a
deterministic computation, so the per-call value is cache-independent;
resolve_cached_version is therefore embedded as the underlying
resolution plus its edition-mismatch guard. -/

/-- The JSON value attached to a feature (serde_json::Value restricted to
the shapes occurring in features.json: null, booleans, numbers,
strings; numbers in feature values are integral). -/
inductive JsonValue : Type
  | jnull
  | jbool (b : Bool)
  | jnum (n : Int)
  | jstr (s : String)
deriving DecidableEq, Repr

/-- One entry of a feature values array (src/structs.rs, FeatureValue). -/
structure FeatureValue : Type where
  value : JsonValue
  version : Option String
  versions : List String
deriving DecidableEq, Repr

/-- One feature record (src/structs.rs, Feature; the description field is
never consulted and is omitted). -/
structure Feature : Type where
  name : String
  values : List FeatureValue
  version : Option String
  versions : List String
deriving DecidableEq, Repr

/-- resolve_cached_version: resolve the string, and fail with Internal
when the resolved edition differs from the requested one (the cache only
memoizes successful same-edition resolutions of this deterministic
function, so it does not change the returned value). -/
def resolveCachedVersion (R : Raws) (ed : Edition) (s : String) :
    Except McDataError Version :=
  match resolveVersion R s with
  | .ok v =>
    if v.edition = ed then .ok v
    else .error (.internal ("Resolved version " ++ s ++ " edition mismatch (got "
      ++ editionName v.edition ++ ", expected " ++ editionName ed ++ ")"))
  | .error e => .error e

/-- Iterator::max over stored versions (by the total Ord of Version):
the fold keeps the accumulator only when it is strictly greater, so the
last of several equally-maximal elements wins, as in Rust. -/
def maxVersionLast : List Version → Option Version
  | [] => none
  | v :: rest =>
    some (rest.foldl
      (fun acc x => if Version.cmpTotal acc x = Ordering.gt then acc else x) v)

/-- Resolution of the lower bound of a feature range: a \<base\>_major
suffix selects the oldest entry of that major series (the last element
of the descending list), anything else goes through the cached resolver. -/
def resolveRangeMin (R : Raws) (ed : Edition) (minStr : String) :
    Except McDataError Version :=
  if strEndsWith minStr "_major" then
    match getVersionDataE R ed with
    | .error e => .error e
    | .ok d =>
      match (lookupKey d.byMajorVersion (strDropRight minStr 6)).bind List.getLast? with
      | some v => .ok v
      | none => .error (.invalidVersion ("Could not find oldest version for major "
          ++ editionToken ed ++ "_" ++ strDropRight minStr 6))
  else resolveCachedVersion R ed minStr

/-- Resolution of the upper bound of a feature range: latest selects the
maximal stored version, a \<base\>_major suffix the newest entry of that
series, anything else goes through the cached resolver. -/
def resolveRangeMax (R : Raws) (ed : Edition) (maxStr : String) :
    Except McDataError Version :=
  if maxStr = "latest" then
    match getVersionDataE R ed with
    | .error e => .error e
    | .ok d =>
      match maxVersionLast (d.byMinecraftVersion.map Prod.snd) with
      | some v => .ok v
      | none => .error (.internal ("Could not determine latest version for " ++ editionName ed))
  else if strEndsWith maxStr "_major" then
    match getVersionDataE R ed with
    | .error e => .error e
    | .ok d =>
      match (lookupKey d.byMajorVersion (strDropRight maxStr 6)).bind List.head? with
      | some v => .ok v
      | none => .error (.invalidVersion ("Could not find newest version for major "
          ++ editionToken ed ++ "_" ++ strDropRight maxStr 6))
  else resolveCachedVersion R ed maxStr

/-- is_version_in_range: resolve both bounds in the edition of the
target, then compare through the partial order operators of Version. -/
def isVersionInRange (R : Raws) (target : Version) (minStr maxStr : String) :
    Except McDataError Bool :=
  match resolveRangeMin R target.edition minStr with
  | .error e => .error e
  | .ok minVer =>
    match resolveRangeMax R target.edition maxStr with
    | .error e => .error e
    | .ok maxVer => .ok (Version.pge target minVer && Version.ple target maxVer)

/-- The per-entry range test of the values loop: a single version string
is the range [v, v]; a two-element versions array is [min, max]; any
other shape is treated as non-matching. -/
def valueInRange (R : Raws) (target : Version) (fv : FeatureValue) :
    Except McDataError Bool :=
  match fv.version with
  | some v => isVersionInRange R target v v
  | none =>
    match fv.versions with
    | [mn, mx] => isVersionInRange R target mn mx
    | _ => .ok false

/-- The reverse scan over a values array (the list passed here is already
reversed): the first entry whose range contains the target wins; when
none does, control reaches the trailing Ok(Bool(false)) of
get_feature_support. -/
def scanValuesRev (R : Raws) (target : Version) : List FeatureValue →
    Except McDataError JsonValue
  | [] => .ok (.jbool false)
  | fv :: rest =>
    match valueInRange R target fv with
    | .error e => .error e
    | .ok true => .ok fv.value
    | .ok false => scanValuesRev R target rest

/-- get_feature_support (src/features.rs): find the last feature of that
name (reverse scan), prefer its values array, else its single version
string (implicit true), else its two-element versions array (implicit
true), defaulting to Bool(false) throughout. -/
def getFeatureSupport (R : Raws) (features : List Feature) (target : Version)
    (featureName : String) : Except McDataError JsonValue :=
  match features.reverse.find? (fun f => f.name == featureName) with
  | some f =>
    if f.values ≠ [] then scanValuesRev R target f.values.reverse
    else
      match f.version with
      | some vs =>
        match isVersionInRange R target vs vs with
        | .error e => .error e
        | .ok true => .ok (.jbool true)
        | .ok false => .ok (.jbool false)
      | none =>
        match f.versions with
        | [mn, mx] =>
          match isVersionInRange R target mn mx with
          | .error e => .error e
          | .ok true => .ok (.jbool true)
          | .ok false => .ok (.jbool false)
        | _ => .ok (.jbool false)
  | none => .ok (.jbool false)

/-! ## Indexer (src/indexer.rs) -/

/-- A block record restricted to the fields the indexer consults (the
remaining payload fields — display name, hardness, drops, states, … —
are copied verbatim by the Rust code and never read by any indexed
operation, so they are omitted from the embedding). -/
structure Block : Type where
  id : Nat
  name : String
  minStateId : Nat
  maxStateId : Nat
  defaultState : Nat
deriving DecidableEq, Repr

/-- The u32 modulus: block ids are u32 and id << 4 wraps silently. -/
def u32Mod : Nat := 2 ^ 32

/-- The state-range synthesis of index_blocks: a block with a nonzero id
but zeroed min/max state ids receives the 16-states-per-id range. -/
def processBlock (b : Block) : Block :=
  if b.id ≠ 0 ∧ b.minStateId = 0 ∧ b.maxStateId = 0 then
    let mn := b.id * 16 % u32Mod
    { b with minStateId := mn, maxStateId := mn + 15, defaultState := mn }
  else b

/-- Maps every state id of a processed block range to that block
(for state_id in min..=max, an empty iteration when max < min). -/
def insertStates (m : List (Nat × Block)) (b : Block) : List (Nat × Block) :=
  (List.range' b.minStateId (b.maxStateId + 1 - b.minStateId)).foldl
    (fun acc s => upsertKey acc s b) m

/-- The index_by_field macro: fold the records into a map keyed by the
given projection (later records overwrite earlier ones on key clashes,
as HashMap::insert does). -/
def indexBy {α κ : Type} [DecidableEq κ] (key : α → κ) (l : List α) : List (κ × α) :=
  l.foldl (fun m x => upsertKey m (key x) x) []

/-- index_blocks: the processed block list feeds the by-state-id map and
the id and name indexes. -/
def indexBlocks (blocks : List Block) :
    List (Nat × Block) × List (String × Block) × List (Nat × Block) :=
  let processed := blocks.map processBlock
  let byStateId := processed.foldl insertStates []
  (indexBy Block.id processed, indexBy Block.name processed, byStateId)

/-- An entity record restricted to the fields the indexer consults. -/
structure Entity : Type where
  id : Nat
  name : String
  entityType : String
deriving DecidableEq, Repr

/-- index_entities: id and name indexes over all entities, plus the two
filtered indexes for mobs and objects. -/
def indexEntities (entities : List Entity) :
    List (Nat × Entity) × List (String × Entity) × List (Nat × Entity) × List (Nat × Entity) :=
  (indexBy Entity.id entities,
   indexBy Entity.name entities,
   indexBy Entity.id (entities.filter (fun e => e.entityType == "mob")),
   indexBy Entity.id (entities.filter (fun e => e.entityType == "object")))

/-- An axis-aligned bounding box.  The source stores six f64 coordinates;
the indexer only moves them, never computes with them, so any value
domain with decidable equality represents them faithfully. -/
structure Aabb : Type where
  x1 : Int
  y1 : Int
  z1 : Int
  x2 : Int
  y2 : Int
  z2 : Int
deriving DecidableEq, Repr

/-- The shape reference of one block in blockCollisionShapes.json: a
single index used for all states, or one index per state offset
(src/indexer.rs pattern matches; the spec calls it a tagged variant). -/
inductive BlockShapeRef : Type
  | single (i : Nat)
  | multiple (idxs : List Nat)
deriving DecidableEq, Repr

/-- The raw collision-shape document (src/structs.rs,
BlockCollisionShapes): block name to shape reference, and shape index
rendered as a decimal string to bounding-box list. -/
structure BlockCollisionShapes : Type where
  blocks : List (String × BlockShapeRef)
  shapes : List (String × List Aabb)
deriving DecidableEq, Repr

/-- The shape_index_result computation of index_block_shapes for one
(state id, block) pair: a Single reference applies to every state; a
Multiple reference is indexed by the offset from the block minimum state
id (an underflowing offset or an out-of-bounds index is skipped with a
warning). -/
def shapeIndexFor (cd : BlockCollisionShapes) (stateId : Nat) (b : Block) : Option Nat :=
  match lookupKey cd.blocks b.name with
  | none => none
  | some (.single i) => some i
  | some (.multiple idxs) =>
    if b.minStateId ≤ stateId then idxs.get? (stateId - b.minStateId) else none

/-- One iteration of the shapes_by_state_id loop: skip when no shape
index resolves, skip shape index 0 (no collision), skip a dangling shape
table reference, otherwise insert the bounding-box list. -/
def shapeStateStep (cd : BlockCollisionShapes) (m : List (Nat × List Aabb))
    (p : Nat × Block) : List (Nat × List Aabb) :=
  match shapeIndexFor cd p.1 p.2 with
  | none => m
  | some i =>
    if i = 0 then m
    else
      match lookupKey cd.shapes (Nat.repr i) with
      | some shapeVec => upsertKey m p.1 shapeVec
      | none => m

/-- index_block_shapes (src/indexer.rs): build the state-id map, then
copy each block default state entry into the by-name map (blocks whose
default state has no entry are absent, not empty). -/
def indexBlockShapes (byStateId : List (Nat × Block)) (byName : List (String × Block))
    (cd : BlockCollisionShapes) :
    List (Nat × List Aabb) × List (String × List Aabb) :=
  let shapesByStateId := byStateId.foldl (shapeStateStep cd) []
  let shapesByName := byName.foldl
    (fun m p =>
      match lookupKey shapesByStateId p.2.defaultState with
      | some shape => upsertKey m p.1 shape
      | none => m) []
  (shapesByStateId, shapesByName)

/-! ## Snapshot comparison methods (src/cached_data.rs) -/

/-- IndexedData::is_newer_or_equal_to: resolve the other version string,
insist on equal editions, then compare through the >= of Version. -/
def isNewerOrEqualTo (R : Raws) (selfVersion : Version) (otherStr : String) :
    Except McDataError Bool :=
  match resolveVersion R otherStr with
  | .error e => .error e
  | .ok other =>
    if selfVersion.edition = other.edition then .ok (Version.pge selfVersion other)
    else .error (.internal ("Cannot compare versions from different editions: "
      ++ editionName selfVersion.edition ++ " (" ++ selfVersion.minecraftVersion ++ ") and "
      ++ editionName other.edition ++ " (" ++ other.minecraftVersion ++ ")"))

/-- IndexedData::is_older_than: resolve the other version string, insist
on equal editions, then compare through the < of Version. -/
def isOlderThan (R : Raws) (selfVersion : Version) (otherStr : String) :
    Except McDataError Bool :=
  match resolveVersion R otherStr with
  | .error e => .error e
  | .ok other =>
    if selfVersion.edition = other.edition then .ok (Version.plt selfVersion other)
    else .error (.internal ("Cannot compare versions from different editions: "
      ++ editionName selfVersion.edition ++ " (" ++ selfVersion.minecraftVersion ++ ") and "
      ++ editionName other.edition ++ " (" ++ other.minecraftVersion ++ ")"))

/-! ## Failure-memoizing caches (src/paths.rs, src/version.rs,
src/features.rs)

Each OnceCell is modelled as an explicit optional stored value; the
underlying I/O (obtaining the data root, reading and parsing a file) is
an input to the state machine.  A call returns the new stored state and
the caller-visible result. -/

/-- The parsed dataPaths.json table (src/structs.rs, DataPaths). -/
structure DataPaths : Type where
  pc : List (String × List (String × String))
  bedrock : List (String × List (String × String))
deriving DecidableEq, Repr

/-- How get_data_paths surfaces the stored memo content: a stored success
is returned as is, a stored failure is re-wrapped as CachedError
referencing the original display message. -/
def surfaceDataPaths (stored : Except McDataError DataPaths) : Except McDataError DataPaths :=
  match stored with
  | .ok d => .ok d
  | .error e => .error (.cachedError ("Previously failed to load dataPaths.json: "
      ++ errMessage e))

/-- get_data_paths (src/paths.rs) as a state machine.  On an empty cell
the init closure runs: a data-root failure aborts initialization (the
cell stays empty and the fresh error is returned), otherwise the load
result — success or failure — is stored; the stored value is then
surfaced through surfaceDataPaths, on this first call exactly as on
every later one. -/
def getDataPathsMemo (st : Option (Except McDataError DataPaths))
    (rootRes : Except McDataError Unit) (loadRes : Except McDataError DataPaths) :
    Option (Except McDataError DataPaths) × Except McDataError DataPaths :=
  match st with
  | some stored => (some stored, surfaceDataPaths stored)
  | none =>
    match rootRes with
    | .error e => (none, .error e)
    | .ok _ => (some loadRes, surfaceDataPaths loadRes)

/-- The init closure of the LOADED_VERSIONS OnceCell: both editions are
loaded eagerly; loadRes is the outcome of reading and parsing each
protocolVersions.json, composed with the pure indexing. -/
def versionInitTable (loadRes : Edition → Except McDataError (List ProtocolVersionInfo)) :
    Edition → Except McDataError VersionData :=
  fun ed =>
    match loadRes ed with
    | .error e => .error e
    | .ok raws => loadAndIndexVersions ed raws

/-- How get_version_data surfaces a stored per-edition result: a stored
failure is re-wrapped as Internal referencing the original message. -/
def surfaceVersionData (ed : Edition) (stored : Except McDataError VersionData) :
    Except McDataError VersionData :=
  match stored with
  | .ok d => .ok d
  | .error e => .error (.internal ("Failed to load protocol versions for " ++ editionName ed
      ++ " during initialization: " ++ errMessage e))

/-- get_version_data (src/version.rs) as a state machine over the
LOADED_VERSIONS cell. -/
def getVersionDataMemo (st : Option (Edition → Except McDataError VersionData))
    (loadRes : Edition → Except McDataError (List ProtocolVersionInfo)) (ed : Edition) :
    Option (Edition → Except McDataError VersionData) × Except McDataError VersionData :=
  match st with
  | some table => (some table, surfaceVersionData ed (table ed))
  | none =>
    let table := versionInitTable loadRes
    (some table, surfaceVersionData ed (table ed))

/-- How get_features surfaces a stored per-edition result: a stored
failure is re-wrapped as Internal referencing the original message. -/
def surfaceFeatures (ed : Edition) (stored : Except McDataError (List Feature)) :
    Except McDataError (List Feature) :=
  match stored with
  | .ok fs => .ok fs
  | .error e => .error (.internal ("Failed to load features.json for " ++ editionName ed
      ++ " during initialization: " ++ errMessage e))

/-- get_features (src/features.rs) as a state machine over the
LOADED_FEATURES cell; loadRes is the outcome of reading and parsing each
features.json. -/
def getFeaturesMemo (st : Option (Edition → Except McDataError (List Feature)))
    (loadRes : Edition → Except McDataError (List Feature)) (ed : Edition) :
    Option (Edition → Except McDataError (List Feature)) × Except McDataError (List Feature) :=
  match st with
  | some table => (some table, surfaceFeatures ed (table ed))
  | none => (some loadRes, surfaceFeatures ed (loadRes ed))

/-! ## The process-wide data cache (src/lib.rs) -/

/-- The cache key of a resolved version: editionToken_minecraftVersion. -/
def cacheKeyOf (v : Version) : String :=
  editionToken v.edition ++ "_" ++ v.minecraftVersion

/-- mc_data (src/lib.rs) as a state machine over the DATA_CACHE map.
Data is the snapshot handle type (Arc(IndexedData) in the source); load
is the outcome of IndexedData::load for the resolved version (file I/O
and indexing).  Resolution failure and load failure return before any
cache mutation; the double-check after the load re-reads the same map in
this sequential model. -/
def mcData {Data : Type} (R : Raws) (s : String) (load : Version → Except McDataError Data)
    (cache : List (String × Data)) : Except McDataError Data × List (String × Data) :=
  match resolveVersion R s with
  | .error e => (.error e, cache)
  | .ok v =>
    match lookupKey cache (cacheKeyOf v) with
    | some d => (.ok d, cache)
    | none =>
      match load v with
      | .error e => (.error e, cache)
      | .ok d =>
        match lookupKey cache (cacheKeyOf v) with
        | some d2 => (.ok d2, cache)
        | none => (.ok d, upsertKey cache (cacheKeyOf v) d)

/-! ## Shared sample data for concrete witnesses and counterexamples -/

/-- A snapshot entry: newer (higher protocol and data version) than the
release below, in the same major series. -/
def sampleSnapshotRaw : ProtocolVersionInfo :=
  { minecraftVersion := "1.0.1", version := 100, dataVersion := some 20,
    usesNetty := true, majorVersion := "1.0", releaseType := "snapshot" }

/-- A release entry, older than the snapshot above. -/
def sampleReleaseRaw : ProtocolVersionInfo :=
  { minecraftVersion := "1.0.2", version := 50, dataVersion := some 10,
    usesNetty := true, majorVersion := "1.0", releaseType := "release" }

/-- A PC registry input holding the snapshot and the release. -/
def sampleRaws : Raws := { pc := [sampleSnapshotRaw, sampleReleaseRaw], bedrock := [] }

/-- A Bedrock-only release entry. -/
def sampleBedrockRaw : ProtocolVersionInfo :=
  { minecraftVersion := "1.20.0", version := 1, dataVersion := some 5,
    usesNetty := true, majorVersion := "1.20", releaseType := "release" }

/-- A registry input whose PC side is empty and whose Bedrock side holds
one release. -/
def sampleBedrockRaws : Raws := { pc := [], bedrock := [sampleBedrockRaw] }

/-! ## C9 — mc_data leaves the cache unchanged on a load failure -/

/-- C9: when the canonical cache key of the resolved version is absent
from the data cache and loading the snapshot fails, mc_data returns that
load error and the cache state is returned unchanged — no entry is
inserted and no entry is modified. -/
theorem mcData_load_failure_cache_unchanged {Data : Type} (R : Raws) (s : String)
    (load : Version → Except McDataError Data) (cache : List (String × Data))
    (v : Version) (e : McDataError)
    (hres : resolveVersion R s = .ok v)
    (hkey : lookupKey cache (cacheKeyOf v) = none)
    (hload : load v = .error e) :
    mcData R s load cache = (.error e, cache) := by
  simp [mcData, hres, hkey, hload]

/-- Witness for C9 at a concrete registry, an always-failing loader and
the empty cache. -/
theorem mcData_load_failure_cache_unchanged_witness :
    mcData sampleRaws "1.0.2"
      ((fun _ => .error (.ioError "blocks.json" "missing")) :
        Version → Except McDataError Nat) []
      = (.error (.ioError "blocks.json" "missing"), []) :=
  mcData_load_failure_cache_unchanged sampleRaws "1.0.2"
    ((fun _ => .error (.ioError "blocks.json" "missing")) :
      Version → Except McDataError Nat) []
    (mkVersion .pc sampleReleaseRaw 10) (.ioError "blocks.json" "missing")
    (by decide) (by decide) rfl

/-! ## C1 — cross-edition comparisons

The snapshot methods is_newer_or_equal_to and is_older_than do fail with
an error when the resolved version belongs to the other edition, and the
partial comparison of two cross-edition Versions yields no ordering; but
the total Ord used for sorting does not fail — it silently treats a
cross-edition pair as equal (src/version.rs, impl Ord for Version), so
the claim that comparing two Versions of different editions always fails
is refuted below. -/

/-- Counterexample for C1: the total comparison (Rust Ord::cmp, the
operation used by the sorting passes) applied to a PC version and a
Bedrock version returns Ordering.eq — it silently treats the two
cross-edition values as equal instead of failing. -/
theorem version_cmpTotal_cross_edition_counterexample :
    Version.cmpTotal
        { minecraftVersion := "1.18.2", majorVersion := "1.18", version := 758,
          dataVersion := 2975, edition := .pc, releaseType := "release" }
        { minecraftVersion := "1.18.30", majorVersion := "1.18", version := 503,
          dataVersion := 17959425, edition := .bedrock, releaseType := "release" }
      = Ordering.eq := by decide

/-- C1 (amended): for a snapshot at version selfV and a string resolving
to the other edition, both comparison methods return an Internal error
and never a boolean; the partial comparison of any two cross-edition
Versions is None; the total comparison used only for sorting returns
Ordering.eq for such a pair instead of failing. -/
theorem cross_edition_comparison_spec (R : Raws) (selfV : Version) (s : String)
    (o : Version) (hres : resolveVersion R s = .ok o)
    (hne : o.edition ≠ selfV.edition) :
    (∃ m, isNewerOrEqualTo R selfV s = .error (.internal m))
    ∧ (∃ m, isOlderThan R selfV s = .error (.internal m))
    ∧ (∀ v w : Version, v.edition ≠ w.edition → Version.cmpOpt v w = none)
    ∧ (∀ v w : Version, v.edition ≠ w.edition → Version.cmpTotal v w = Ordering.eq) := by
  have hne2 : ¬(selfV.edition = o.edition) := fun h => hne (h.symm)
  refine ⟨?_, ?_, ?_, ?_⟩
  · simp [isNewerOrEqualTo, hres, hne2]
  · simp [isOlderThan, hres, hne2]
  · intro v w h
    simp [Version.cmpOpt, h]
  · intro v w h
    simp [Version.cmpTotal, Version.cmpOpt, h]

/-- Witness for C1 at a concrete PC snapshot version and a Bedrock
version string. -/
theorem cross_edition_comparison_spec_witness :
    (∃ m, isNewerOrEqualTo sampleBedrockRaws
        { minecraftVersion := "1.18.2", majorVersion := "1.18", version := 758,
          dataVersion := 2975, edition := .pc, releaseType := "release" }
        "bedrock_1.20.0" = .error (.internal m))
    ∧ (∃ m, isOlderThan sampleBedrockRaws
        { minecraftVersion := "1.18.2", majorVersion := "1.18", version := 758,
          dataVersion := 2975, edition := .pc, releaseType := "release" }
        "bedrock_1.20.0" = .error (.internal m)) :=
  let h := cross_edition_comparison_spec sampleBedrockRaws
    { minecraftVersion := "1.18.2", majorVersion := "1.18", version := 758,
      dataVersion := 2975, edition := .pc, releaseType := "release" }
    "bedrock_1.20.0" (mkVersion .bedrock sampleBedrockRaw 5) (by decide) (by decide)
  ⟨h.1, h.2.1⟩

/-! ## C4 — failure-memoizing caches

The three memos do memoize failures, but not in the way the claim
states: the dataPaths memo wraps a memoized load failure into
CachedError on every call including the very first one (the fresh
underlying error is never surfaced for a load failure; only a data-root
failure — which is not memoized at all — surfaces fresh), and the
registry and features memos wrap their memoized failures into the
Internal kind, not CachedError. -/

/-- Counterexample for C4: on the very first call, with an empty cell, a
successful data root and a failing dataPaths.json load, get_data_paths
already returns the CachedError wrapper — not the fresh underlying I/O
error, contradicting the claim that the first failing call surfaces the
fresh error and only later calls see the cached kind. -/
theorem getDataPathsMemo_first_call_counterexample :
    (getDataPathsMemo none (.ok ())
        (.error (.ioError "dataPaths.json" "permission denied"))).2
      = .error (.cachedError ("Previously failed to load dataPaths.json: "
          ++ errMessage (.ioError "dataPaths.json" "permission denied")))
    ∧ (getDataPathsMemo none (.ok ())
        (.error (.ioError "dataPaths.json" "permission denied"))).2
      ≠ .error (.ioError "dataPaths.json" "permission denied") := by
  constructor <;> decide

/-- C4 (amended): the dataPaths memo stores a load failure and surfaces
it as CachedError referencing the original display message on every call
including the first, while a data-root failure during its init is not
memoized and is returned fresh; the version-registry and features memos
memoize per-edition failures and surface them as Internal errors
referencing the original message — a kind distinct from the fresh
error — again on every call including the first. -/
theorem failure_memoization_spec :
    (∀ (rootE : McDataError) (load : Except McDataError DataPaths),
      getDataPathsMemo none (.error rootE) load = (none, .error rootE))
    ∧ (∀ (load : Except McDataError DataPaths) (e : McDataError), load = .error e →
      getDataPathsMemo none (.ok ()) load = (some (.error e),
        .error (.cachedError ("Previously failed to load dataPaths.json: " ++ errMessage e))))
    ∧ (∀ (e : McDataError) (rootRes : Except McDataError Unit)
        (load : Except McDataError DataPaths),
      getDataPathsMemo (some (.error e)) rootRes load = (some (.error e),
        .error (.cachedError ("Previously failed to load dataPaths.json: " ++ errMessage e))))
    ∧ (∀ (d : DataPaths) (rootRes : Except McDataError Unit)
        (load : Except McDataError DataPaths),
      getDataPathsMemo (some (.ok d)) rootRes load = (some (.ok d), .ok d))
    ∧ (∀ (table : Edition → Except McDataError VersionData)
        (lr : Edition → Except McDataError (List ProtocolVersionInfo))
        (ed : Edition) (e : McDataError), table ed = .error e →
      getVersionDataMemo (some table) lr ed = (some table,
        .error (.internal ("Failed to load protocol versions for " ++ editionName ed
          ++ " during initialization: " ++ errMessage e))))
    ∧ (∀ (lr : Edition → Except McDataError (List ProtocolVersionInfo))
        (ed : Edition) (e : McDataError), versionInitTable lr ed = .error e →
      getVersionDataMemo none lr ed = (some (versionInitTable lr),
        .error (.internal ("Failed to load protocol versions for " ++ editionName ed
          ++ " during initialization: " ++ errMessage e))))
    ∧ (∀ (table : Edition → Except McDataError (List Feature))
        (lr : Edition → Except McDataError (List Feature))
        (ed : Edition) (e : McDataError), table ed = .error e →
      getFeaturesMemo (some table) lr ed = (some table,
        .error (.internal ("Failed to load features.json for " ++ editionName ed
          ++ " during initialization: " ++ errMessage e))))
    ∧ (∀ (lr : Edition → Except McDataError (List Feature)) (ed : Edition) (e : McDataError),
        lr ed = .error e →
      getFeaturesMemo none lr ed = (some lr,
        .error (.internal ("Failed to load features.json for " ++ editionName ed
          ++ " during initialization: " ++ errMessage e))))
    ∧ (∀ m : String, ∀ p c : String, McDataError.cachedError m ≠ McDataError.ioError p c
        ∧ McDataError.cachedError m ≠ McDataError.jsonParseError p c
        ∧ McDataError.internal m ≠ McDataError.ioError p c
        ∧ McDataError.internal m ≠ McDataError.jsonParseError p c) := by
  refine ⟨?_, ?_, ?_, ?_, ?_, ?_, ?_, ?_, ?_⟩
  · intro rootE load
    rfl
  · intro load e h
    subst h
    rfl
  · intro e rootRes load
    rfl
  · intro d rootRes load
    rfl
  · intro table lr ed e h
    simp [getVersionDataMemo, surfaceVersionData, h]
  · intro lr ed e h
    simp [getVersionDataMemo, surfaceVersionData, h]
  · intro table lr ed e h
    simp [getFeaturesMemo, surfaceFeatures, h]
  · intro lr ed e h
    simp [getFeaturesMemo, surfaceFeatures, h]
  · intro m p c
    refine ⟨?_, ?_, ?_, ?_⟩ <;> intro h <;> exact McDataError.noConfusion h

/-- Witness for C4: the second-call conjunct applied to a concretely
stored JSON parse failure. -/
theorem failure_memoization_spec_witness :
    getDataPathsMemo (some (.error (.jsonParseError "dataPaths.json" "eof"))) (.ok ())
        (.ok { pc := [], bedrock := [] })
      = (some (.error (.jsonParseError "dataPaths.json" "eof")),
        .error (.cachedError ("Previously failed to load dataPaths.json: "
          ++ errMessage (.jsonParseError "dataPaths.json" "eof")))) :=
  failure_memoization_spec.2.2.1 (.jsonParseError "dataPaths.json" "eof") (.ok ())
    (.ok { pc := [], bedrock := [] })

/-! ## C8 — shape index 0 means no entry -/

theorem lookupKey_foldl_shapeStateStep (cd : BlockCollisionShapes)
    (l : List (Nat × Block)) (s : Nat)
    (h : ∀ b : Block, (s, b) ∈ l → shapeIndexFor cd s b = some 0) :
    ∀ m, lookupKey (l.foldl (shapeStateStep cd) m) s = lookupKey m s := by
  induction l with
  | nil => intro m; rfl
  | cons p rest ih =>
    intro m
    have hrest : ∀ b : Block, (s, b) ∈ rest → shapeIndexFor cd s b = some 0 :=
      fun b hb => h b (List.mem_cons_of_mem _ hb)
    rw [List.foldl_cons, ih hrest]
    by_cases hp : p.1 = s
    · have h0 : shapeIndexFor cd s p.2 = some 0 := by
        apply h
        have : p = (s, p.2) := by
          cases p; simp at hp; simp [hp]
        rw [← this]
        exact List.mem_cons_self _ _
      unfold shapeStateStep
      rw [hp, h0]
      simp
    · unfold shapeStateStep
      cases hsi : shapeIndexFor cd p.1 p.2 with
      | none => rfl
      | some i =>
        by_cases hi : i = 0
        · simp [hi]
        · simp only [hi, if_false]
          cases hsh : lookupKey cd.shapes (Nat.repr i) with
          | none => rfl
          | some shapeVec => exact lookupKey_upsertKey_ne _ _ _ _ hp

theorem lookupKey_foldl_nameStep (sbs : List (Nat × List Aabb))
    (l : List (String × Block)) (nm : String)
    (h : ∀ b : Block, (nm, b) ∈ l → lookupKey sbs b.defaultState = none) :
    ∀ m, lookupKey (l.foldl
      (fun m p =>
        match lookupKey sbs p.2.defaultState with
        | some shape => upsertKey m p.1 shape
        | none => m) m) nm = lookupKey m nm := by
  induction l with
  | nil => intro m; rfl
  | cons p rest ih =>
    intro m
    have hrest : ∀ b : Block, (nm, b) ∈ rest → lookupKey sbs b.defaultState = none :=
      fun b hb => h b (List.mem_cons_of_mem _ hb)
    rw [List.foldl_cons, ih hrest]
    by_cases hp : p.1 = nm
    · have h0 : lookupKey sbs p.2.defaultState = none := by
        apply h
        have : p = (nm, p.2) := by
          cases p; simp at hp; simp [hp]
        rw [← this]
        exact List.mem_cons_self _ _
      simp [h0]
    · cases hs : lookupKey sbs p.2.defaultState with
      | none => rfl
      | some shape => exact lookupKey_upsertKey_ne _ _ _ _ hp

/-- C8: in the collision-shape indexing, a state id all of whose block
entries resolve to shape reference index 0 receives no entry in
shapes_by_state_id (the state is omitted, not mapped to an empty list);
consequently a block name all of whose block entries have a default
state resolving to shape index 0 — air being the canonical instance —
receives no entry in shapes_by_name. -/
theorem shapeIndexZero_omitted (byStateId : List (Nat × Block))
    (byName : List (String × Block)) (cd : BlockCollisionShapes) :
    (∀ s : Nat, (∀ b : Block, (s, b) ∈ byStateId → shapeIndexFor cd s b = some 0) →
      lookupKey (indexBlockShapes byStateId byName cd).1 s = none)
    ∧ (∀ nm : String,
      (∀ b : Block, (nm, b) ∈ byName → ∀ b2 : Block, (b.defaultState, b2) ∈ byStateId →
        shapeIndexFor cd b.defaultState b2 = some 0) →
      lookupKey (indexBlockShapes byStateId byName cd).2 nm = none) := by
  constructor
  · intro s h
    show lookupKey (byStateId.foldl (shapeStateStep cd) []) s = none
    rw [lookupKey_foldl_shapeStateStep cd byStateId s h []]
    rfl
  · intro nm h
    show lookupKey (byName.foldl _ []) nm = none
    rw [lookupKey_foldl_nameStep _ byName nm ?_ []]
    · rfl
    · intro b hb
      rw [lookupKey_foldl_shapeStateStep cd byStateId b.defaultState (h b hb) []]
      rfl

/-- The air block of the C8 witness: id 0, a single state 0. -/
def sampleAirBlock : Block :=
  { id := 0, name := "air", minStateId := 0, maxStateId := 0, defaultState := 0 }

/-- The stone block of the C8 witness. -/
def sampleStoneBlock : Block :=
  { id := 1, name := "stone", minStateId := 1, maxStateId := 1, defaultState := 1 }

/-- The collision document of the C8 witness: air has shape reference 0
(no collision), stone has shape 1, a full cube. -/
def sampleCollisionShapes : BlockCollisionShapes :=
  { blocks := [("air", .single 0), ("stone", .single 1)]
    shapes := [("1", [{ x1 := 0, y1 := 0, z1 := 0, x2 := 1, y2 := 1, z2 := 1 }])] }

/-- Witness for C8: with air resolving to shape index 0, state 0 has no
entry in shapes_by_state_id and the name air has no entry in
shapes_by_name (while stone does get indexed, showing the maps are not
simply empty). -/
theorem shapeIndexZero_omitted_witness :
    lookupKey (indexBlockShapes [(0, sampleAirBlock), (1, sampleStoneBlock)]
        [("air", sampleAirBlock), ("stone", sampleStoneBlock)] sampleCollisionShapes).1 0 = none
    ∧ lookupKey (indexBlockShapes [(0, sampleAirBlock), (1, sampleStoneBlock)]
        [("air", sampleAirBlock), ("stone", sampleStoneBlock)] sampleCollisionShapes).2 "air"
        = none
    ∧ lookupKey (indexBlockShapes [(0, sampleAirBlock), (1, sampleStoneBlock)]
        [("air", sampleAirBlock), ("stone", sampleStoneBlock)] sampleCollisionShapes).2 "stone"
        = some [{ x1 := 0, y1 := 0, z1 := 0, x2 := 1, y2 := 1, z2 := 1 }] := by
  refine ⟨?_, ?_, ?_⟩
  · refine (shapeIndexZero_omitted [(0, sampleAirBlock), (1, sampleStoneBlock)]
      [("air", sampleAirBlock), ("stone", sampleStoneBlock)] sampleCollisionShapes).1 0 ?_
    intro b hb
    simp at hb
    subst hb
    decide
  · refine (shapeIndexZero_omitted [(0, sampleAirBlock), (1, sampleStoneBlock)]
      [("air", sampleAirBlock), ("stone", sampleStoneBlock)] sampleCollisionShapes).2 "air" ?_
    intro b hb
    simp at hb
    subst hb
    intro b2 hb2
    simp [sampleAirBlock] at hb2
    subst hb2
    decide
  · decide

/-! ## C10 — filtered entity indexes -/

theorem lookupKey_foldl_indexBy_none {α κ : Type} [DecidableEq κ] (key : α → κ)
    (l : List α) (k : κ) (h : ∀ y ∈ l, key y ≠ k) :
    ∀ m, lookupKey (l.foldl (fun m x => upsertKey m (key x) x) m) k = lookupKey m k := by
  induction l with
  | nil => intro m; rfl
  | cons x rest ih =>
    intro m
    rw [List.foldl_cons, ih (fun y hy => h y (List.mem_cons_of_mem _ hy))]
    exact lookupKey_upsertKey_ne _ _ _ _ (h x (List.mem_cons_self _ _))

theorem lookupKey_foldl_indexBy_some {α κ : Type} [DecidableEq κ] (key : α → κ)
    (l : List α) (k : κ) (x : α) (hx : x ∈ l) (hk : key x = k)
    (huniq : ∀ y ∈ l, key y = k → y = x) :
    ∀ m, lookupKey (l.foldl (fun m x => upsertKey m (key x) x) m) k = some x := by
  induction l with
  | nil => exact absurd hx (List.not_mem_nil x)
  | cons y rest ih =>
    intro m
    rw [List.foldl_cons]
    by_cases hmem : ∃ z ∈ rest, key z = k
    · obtain ⟨z, hz, hzk⟩ := hmem
      have hzx : z = x := huniq z (List.mem_cons_of_mem _ hz) hzk
      subst hzx
      exact ih hz (fun w hw hwk => huniq w (List.mem_cons_of_mem _ hw) hwk) _
    · push_neg at hmem
      have hnone : ∀ w ∈ rest, key w ≠ k := hmem
      rw [lookupKey_foldl_indexBy_none key rest k hnone]
      have hyx : y = x := by
        rcases List.mem_cons.1 hx with h1 | h1
        · exact h1.symm
        · exact absurd hk (hmem x h1)
      subst hyx
      rw [hk]
      exact lookupKey_upsertKey_self _ _ _

theorem lookupKey_indexBy_iff {α κ : Type} [DecidableEq κ] (key : α → κ)
    (l : List α) (hinj : ∀ x ∈ l, ∀ y ∈ l, key x = key y → x = y) (k : κ) (x : α) :
    lookupKey (indexBy key l) k = some x ↔ (x ∈ l ∧ key x = k) := by
  constructor
  · intro h
    have haux : ∀ (rest : List α) (m : List (κ × α)),
        lookupKey (rest.foldl (fun m x => upsertKey m (key x) x) m) k = some x →
        (x ∈ rest ∧ key x = k) ∨ lookupKey m k = some x := by
      intro rest
      induction rest with
      | nil => intro m hm; exact Or.inr hm
      | cons y ys ih =>
        intro m hm
        rw [List.foldl_cons] at hm
        rcases ih _ hm with h1 | h1
        · exact Or.inl ⟨List.mem_cons_of_mem _ h1.1, h1.2⟩
        · by_cases hky : key y = k
          · rw [← hky] at h1
            rw [lookupKey_upsertKey_self] at h1
            cases h1
            exact Or.inl ⟨List.mem_cons_self _ _, hky⟩
          · rw [lookupKey_upsertKey_ne _ _ _ _ hky] at h1
            exact Or.inr h1
    rcases haux l [] h with h1 | h1
    · exact h1
    · simp [lookupKey] at h1
  · rintro ⟨hx, hk⟩
    exact lookupKey_foldl_indexBy_some key l k x hx hk
      (fun y hy hyk => hinj y hy x hx (hyk.trans hk.symm)) []

/-- C10: with entity ids unique across the loaded entity list, the
mobs_by_id map holds exactly the entities whose type is mob keyed by
their id, objects_by_id holds exactly those whose type is object, and
every id keyed in either filtered map is also a key of entities_by_id. -/
theorem entity_filtered_indexes_spec (entities : List Entity)
    (hids : ∀ x ∈ entities, ∀ y ∈ entities, x.id = y.id → x = y) :
    (∀ (i : Nat) (e : Entity), lookupKey (indexEntities entities).2.2.1 i = some e ↔
      (e ∈ entities ∧ e.entityType = "mob" ∧ e.id = i))
    ∧ (∀ (i : Nat) (e : Entity), lookupKey (indexEntities entities).2.2.2 i = some e ↔
      (e ∈ entities ∧ e.entityType = "object" ∧ e.id = i))
    ∧ (∀ (i : Nat) (e : Entity), lookupKey (indexEntities entities).2.2.1 i = some e →
      ∃ x, lookupKey (indexEntities entities).1 i = some x)
    ∧ (∀ (i : Nat) (e : Entity), lookupKey (indexEntities entities).2.2.2 i = some e →
      ∃ x, lookupKey (indexEntities entities).1 i = some x) := by
  have hmob : ∀ x ∈ entities.filter (fun e => e.entityType == "mob"),
      ∀ y ∈ entities.filter (fun e => e.entityType == "mob"), x.id = y.id → x = y :=
    fun x hx y hy h => hids x (List.mem_of_mem_filter hx) y (List.mem_of_mem_filter hy) h
  have hobj : ∀ x ∈ entities.filter (fun e => e.entityType == "object"),
      ∀ y ∈ entities.filter (fun e => e.entityType == "object"), x.id = y.id → x = y :=
    fun x hx y hy h => hids x (List.mem_of_mem_filter hx) y (List.mem_of_mem_filter hy) h
  have hmob_iff : ∀ (i : Nat) (e : Entity),
      lookupKey (indexEntities entities).2.2.1 i = some e ↔
      (e ∈ entities ∧ e.entityType = "mob" ∧ e.id = i) := by
    intro i e
    rw [show (indexEntities entities).2.2.1
        = indexBy Entity.id (entities.filter (fun e => e.entityType == "mob")) from rfl]
    rw [lookupKey_indexBy_iff Entity.id _ hmob i e]
    simp [List.mem_filter, and_assoc]
  have hobj_iff : ∀ (i : Nat) (e : Entity),
      lookupKey (indexEntities entities).2.2.2 i = some e ↔
      (e ∈ entities ∧ e.entityType = "object" ∧ e.id = i) := by
    intro i e
    rw [show (indexEntities entities).2.2.2
        = indexBy Entity.id (entities.filter (fun e => e.entityType == "object")) from rfl]
    rw [lookupKey_indexBy_iff Entity.id _ hobj i e]
    simp [List.mem_filter, and_assoc]
  refine ⟨hmob_iff, hobj_iff, ?_, ?_⟩
  · intro i e h
    obtain ⟨he, _, hi⟩ := (hmob_iff i e).1 h
    exact ⟨e, (lookupKey_indexBy_iff Entity.id entities hids i e).2 ⟨he, hi⟩⟩
  · intro i e h
    obtain ⟨he, _, hi⟩ := (hobj_iff i e).1 h
    exact ⟨e, (lookupKey_indexBy_iff Entity.id entities hids i e).2 ⟨he, hi⟩⟩

/-- The entities of the C10 witness. -/
def sampleEntities : List Entity :=
  [{ id := 0, name := "zombie", entityType := "mob" },
   { id := 1, name := "arrow", entityType := "object" },
   { id := 2, name := "player", entityType := "player" }]

/-- Witness for C10 at a concrete three-entity list. -/
theorem entity_filtered_indexes_spec_witness :
    (lookupKey (indexEntities sampleEntities).2.2.1 0
      = some { id := 0, name := "zombie", entityType := "mob" })
    ∧ lookupKey (indexEntities sampleEntities).2.2.1 2 = none := by
  constructor
  · exact ((entity_filtered_indexes_spec sampleEntities (by decide)).1 0
      { id := 0, name := "zombie", entityType := "mob" }).2 (by decide)
  · decide

/-! ## C5 — every state id of a block range maps to that block -/

theorem lookupKey_foldl_upsert_const {β : Type} (b : β) (xs : List Nat) :
    ∀ (m : List (Nat × β)) (s : Nat),
      lookupKey (xs.foldl (fun acc k => upsertKey acc k b) m) s
        = if s ∈ xs then some b else lookupKey m s := by
  induction xs with
  | nil => intro m s; simp
  | cons k rest ih =>
    intro m s
    rw [List.foldl_cons, ih]
    by_cases hr : s ∈ rest
    · simp [hr]
    · by_cases hk : k = s
      · subst hk
        simp [hr, lookupKey_upsertKey_self]
      · have : ¬s ∈ (k :: rest) := by
          intro hc
          rcases List.mem_cons.1 hc with h | h
          · exact hk h.symm
          · exact hr h
        simp [hr, this, lookupKey_upsertKey_ne _ _ _ _ hk]

theorem lookupKey_insertStates (m : List (Nat × Block)) (b : Block) (s : Nat) :
    lookupKey (insertStates m b) s
      = if b.minStateId ≤ s ∧ s ≤ b.maxStateId then some b else lookupKey m s := by
  unfold insertStates
  rw [lookupKey_foldl_upsert_const]
  congr 1
  simp only [List.mem_range'_1, eq_iff_iff]
  omega

theorem lookupKey_foldl_insertStates_none (l : List Block) (s : Nat)
    (h : ∀ b ∈ l, ¬(b.minStateId ≤ s ∧ s ≤ b.maxStateId)) :
    ∀ m, lookupKey (l.foldl insertStates m) s = lookupKey m s := by
  induction l with
  | nil => intro m; rfl
  | cons c rest ih =>
    intro m
    rw [List.foldl_cons, ih (fun b hb => h b (List.mem_cons_of_mem _ hb)),
      lookupKey_insertStates]
    simp [h c (List.mem_cons_self _ _)]

theorem lookupKey_foldl_insertStates_some (l : List Block) (s : Nat) (b : Block)
    (hb : b ∈ l) (hcov : b.minStateId ≤ s ∧ s ≤ b.maxStateId)
    (huniq : ∀ b2 ∈ l, b2.minStateId ≤ s ∧ s ≤ b2.maxStateId → b2 = b) :
    ∀ m, lookupKey (l.foldl insertStates m) s = some b := by
  induction l with
  | nil => exact absurd hb (List.not_mem_nil b)
  | cons c rest ih =>
    intro m
    rw [List.foldl_cons]
    by_cases hex : ∃ b2 ∈ rest, b2.minStateId ≤ s ∧ s ≤ b2.maxStateId
    · obtain ⟨b2, hb2, hb2c⟩ := hex
      have : b2 = b := huniq b2 (List.mem_cons_of_mem _ hb2) hb2c
      subst this
      exact ih hb2 (fun w hw hwc => huniq w (List.mem_cons_of_mem _ hw) hwc) _
    · push_neg at hex
      rw [lookupKey_foldl_insertStates_none rest s (fun w hw => by
        intro hc
        have := hex w hw hc.1
        omega)]
      have hcb : c = b := by
        rcases List.mem_cons.1 hb with h1 | h1
        · exact h1.symm
        · exfalso
          have := hex b h1 hcov.1
          omega
      subst hcb
      rw [lookupKey_insertStates]
      simp [hcov]

/-- C5: processed blocks with id not 0 but zeroed source state ids get
the synthesized range minStateId = id * 16 mod 2^32 (the u32 id << 4),
maxStateId = minStateId + 15, defaultState = minStateId; all other
blocks keep their source fields; and provided the processed state-id
ranges of distinct block descriptors are disjoint, every state id s in
the range of a processed block b satisfies blocks_by_state_id[s] = b. -/
theorem block_state_range_spec (blocks : List Block)
    (hdisj : ∀ b1 ∈ blocks.map processBlock, ∀ b2 ∈ blocks.map processBlock, b1 ≠ b2 →
      b1.maxStateId < b2.minStateId ∨ b2.maxStateId < b1.minStateId) :
    (∀ blk : Block, blk.id ≠ 0 → blk.minStateId = 0 → blk.maxStateId = 0 →
      (processBlock blk).minStateId = blk.id * 16 % u32Mod
      ∧ (processBlock blk).maxStateId = blk.id * 16 % u32Mod + 15
      ∧ (processBlock blk).defaultState = blk.id * 16 % u32Mod)
    ∧ (∀ blk : Block, ¬(blk.id ≠ 0 ∧ blk.minStateId = 0 ∧ blk.maxStateId = 0) →
      processBlock blk = blk)
    ∧ (∀ b ∈ blocks.map processBlock, ∀ s : Nat, b.minStateId ≤ s → s ≤ b.maxStateId →
      lookupKey (indexBlocks blocks).2.2 s = some b) := by
  refine ⟨?_, ?_, ?_⟩
  · intro blk h1 h2 h3
    simp [processBlock, h1, h2, h3]
  · intro blk h
    simp [processBlock, h]
  · intro b hb s hs1 hs2
    have huniq : ∀ b2 ∈ blocks.map processBlock,
        b2.minStateId ≤ s ∧ s ≤ b2.maxStateId → b2 = b := by
      intro b2 hb2 hc
      by_contra hne
      rcases hdisj b2 hb2 b hb hne with h | h <;> omega
    exact lookupKey_foldl_insertStates_some (blocks.map processBlock) s b hb ⟨hs1, hs2⟩
      huniq []

/-- A block with a nonzero id and zeroed state ids, triggering the
synthesized 16-state range in the C5 witness. -/
def sampleLegacyBlock : Block :=
  { id := 2, name := "grass", minStateId := 0, maxStateId := 0, defaultState := 0 }

/-- Witness for C5: air (id 0, untouched range), stone and the legacy
block with its synthesized range 32..47; state 33 maps to the processed
legacy descriptor. -/
theorem block_state_range_spec_witness :
    lookupKey (indexBlocks [sampleAirBlock, sampleStoneBlock, sampleLegacyBlock]).2.2 33
      = some { id := 2, name := "grass", minStateId := 32, maxStateId := 47,
               defaultState := 32 } := by
  have h := (block_state_range_spec [sampleAirBlock, sampleStoneBlock, sampleLegacyBlock]
    (by decide)).2.2
  exact h { id := 2, name := "grass", minStateId := 32, maxStateId := 47, defaultState := 32 }
    (by decide) 33 (by decide) (by decide)

/-! ## C3 — feature evaluation scan order and default -/

theorem scanValuesRev_cons (R : Raws) (target : Version) (fv : FeatureValue)
    (rest : List FeatureValue) :
    scanValuesRev R target (fv :: rest)
      = match valueInRange R target fv with
        | .error e => .error e
        | .ok true => .ok fv.value
        | .ok false => scanValuesRev R target rest := rfl

theorem scanValuesRev_as_find (R : Raws) (target : Version) (l : List FeatureValue)
    (h : ∀ fv ∈ l, ∃ bb, valueInRange R target fv = .ok bb) :
    scanValuesRev R target l
      = .ok (match l.find? (fun fv => decide (valueInRange R target fv = .ok true)) with
        | some fv => fv.value
        | none => .jbool false) := by
  induction l with
  | nil => rfl
  | cons fv rest ih =>
    obtain ⟨bb, hbb⟩ := h fv (List.mem_cons_self _ _)
    cases bb with
    | true =>
      rw [scanValuesRev_cons, hbb]
      show Except.ok fv.value = _
      simp [List.find?_cons, hbb]
    | false =>
      rw [scanValuesRev_cons, hbb]
      show scanValuesRev R target rest = _
      rw [ih (fun w hw => h w (List.mem_cons_of_mem _ hw))]
      have : (fun fv => decide (valueInRange R target fv = .ok true)) fv = false := by
        simp [hbb]
      simp [List.find?_cons, this]

/-- C3: feature evaluation selects the last feature entry of the given
name (reverse scan of the feature list); when no entry carries that name
the result is the JSON boolean false; when the selected entry has a
non-empty values list the result is exactly the reverse scan of that
list — an expression mentioning only the values field, so the entry's
own version and versions fields are never consulted — and, whenever the
per-entry range checks all succeed, that scan returns the value of the
first entry (in reverse order) whose range contains the target version,
or the JSON boolean false when none matches. -/
theorem feature_evaluation_spec (R : Raws) (features : List Feature) (target : Version)
    (nm : String) :
    ((∀ f ∈ features, f.name ≠ nm) →
      getFeatureSupport R features target nm = .ok (.jbool false))
    ∧ (∀ f, features.reverse.find? (fun g => g.name == nm) = some f → f.values ≠ [] →
      getFeatureSupport R features target nm = scanValuesRev R target f.values.reverse)
    ∧ (∀ f, features.reverse.find? (fun g => g.name == nm) = some f → f.values ≠ [] →
      (∀ fv ∈ f.values, ∃ bb, valueInRange R target fv = .ok bb) →
      getFeatureSupport R features target nm
        = .ok (match f.values.reverse.find?
            (fun fv => decide (valueInRange R target fv = .ok true)) with
          | some fv => fv.value
          | none => .jbool false)) := by
  refine ⟨?_, ?_, ?_⟩
  · intro h
    have hnone : features.reverse.find? (fun g => g.name == nm) = none := by
      rw [List.find?_eq_none]
      intro g hg
      simp [h g (List.mem_reverse.1 hg)]
    simp [getFeatureSupport, hnone]
  · intro f hfind hvals
    simp [getFeatureSupport, hfind, hvals]
  · intro f hfind hvals hok
    rw [show getFeatureSupport R features target nm = scanValuesRev R target f.values.reverse
      from by simp [getFeatureSupport, hfind, hvals]]
    exact scanValuesRev_as_find R target f.values.reverse
      (fun fv hfv => hok fv (List.mem_reverse.1 hfv))

/-- An older feature definition with the same name, overridden by the
later one in the C3 witness. -/
def sampleOldFeature : Feature :=
  { name := "metadataIxOfItem", values := [], version := none, versions := [] }

/-- The later feature definition whose values array carries the number 7
for the sample range. -/
def sampleNewFeature : Feature :=
  { name := "metadataIxOfItem"
    values := [{ value := .jnum 7, version := none, versions := ["1.0.2", "1.0.1"] }]
    version := some "1.0.9"
    versions := [] }

/-- Witness for C3: the later of two same-named features is selected,
its values array is scanned and the matching range yields the number 7
(the entry's own version field, which would not resolve, is never
consulted). -/
theorem feature_evaluation_spec_witness :
    getFeatureSupport sampleRaws [sampleOldFeature, sampleNewFeature]
      (mkVersion .pc sampleReleaseRaw 10) "metadataIxOfItem" = .ok (.jnum 7) := by
  have h := (feature_evaluation_spec sampleRaws [sampleOldFeature, sampleNewFeature]
    (mkVersion .pc sampleReleaseRaw 10) "metadataIxOfItem").2.2
  refine (h sampleNewFeature (by decide) (by decide) ?_).trans (by decide)
  intro fv hfv
  simp [sampleNewFeature] at hfv
  subst hfv
  exact ⟨true, by decide⟩

/-! ## C2 — the major-version key of by_minecraft_version

The registry construction folds every entry of a major series through
the majorCond update rule.  The fold below is that rule in isolation;
the key lemma connects it to the built map, and the characterization
lemmas establish what the rule actually yields. -/

/-- One update of the stored major-key entry by a candidate. -/
def majorFoldStep (st : Option Version) (v : Version) : Option Version :=
  match st with
  | none => some v
  | some e => if majorCond v e then some v else some e

/-- The stored major-key entry after a sequence of candidates. -/
def majorFold : Option Version → List Version → Option Version
  | st, [] => st
  | st, v :: rest => majorFold (majorFoldStep st v) rest

/-- The versions of one major series, in insertion (processing) order. -/
def seriesOf (ed : Edition) (l : List ProtocolVersionInfo) (M : String) : List Version :=
  (l.filter (fun r => r.majorVersion == M)).filterMap
    (fun r => r.dataVersion.map (mkVersion ed r))

theorem synthesize_isSome (l : List ProtocolVersionInfo) :
    ∀ r ∈ synthesizeDataVersions l, r.dataVersion.isSome := by
  intro r hr
  unfold synthesizeDataVersions at hr
  obtain ⟨p, hp, hpr⟩ := List.mem_map.1 hr
  by_cases h : p.2.dataVersion.isNone
  · rw [if_pos h] at hpr
    rw [← hpr]
    rfl
  · rw [if_neg h] at hpr
    rw [← hpr]
    cases hdv : p.2.dataVersion with
    | none => exact absurd (by rw [hdv]; rfl) h
    | some x => rfl

theorem lookupKey_majorUpdate_ne (m : List (String × Version)) (k K : String)
    (v : Version) (h : k ≠ K) : lookupKey (majorUpdate m k v) K = lookupKey m K := by
  unfold majorUpdate
  cases lookupKey m k with
  | none => exact lookupKey_upsertKey_ne _ _ _ _ h
  | some e =>
    cases hc : majorCond v e
    · simp [hc]
    · simp [hc, lookupKey_upsertKey_ne _ _ _ _ h]

theorem lookupKey_majorUpdate_self (m : List (String × Version)) (K : String) (v : Version) :
    lookupKey (majorUpdate m K v) K = majorFoldStep (lookupKey m K) v := by
  unfold majorUpdate majorFoldStep
  cases hm0 : lookupKey m K with
  | none => exact lookupKey_upsertKey_self _ _ _
  | some e =>
    cases hc : majorCond v e
    · simp [hc, hm0]
    · simp [hc, lookupKey_upsertKey_self]

theorem indexEntries_isOk (ed : Edition) :
    ∀ (l : List ProtocolVersionInfo) (acc : VersionData),
      (∀ r ∈ l, r.dataVersion.isSome) → ∃ d0, indexEntries ed l acc = .ok d0 := by
  intro l
  induction l with
  | nil => exact fun acc _ => ⟨acc, rfl⟩
  | cons r rest ih =>
    intro acc hsome
    obtain ⟨dv, hdv⟩ := Option.isSome_iff_exists.1 (hsome r (List.mem_cons_self _ _))
    obtain ⟨d0, hd0⟩ := ih (buildStep ed acc r dv)
      (fun w hw => hsome w (List.mem_cons_of_mem _ hw))
    exact ⟨d0, by unfold indexEntries; rw [hdv]; exact hd0⟩

theorem lookup_indexEntries_major (ed : Edition) (M : String) :
    ∀ (l : List ProtocolVersionInfo) (acc : VersionData) (d : VersionData),
      (∀ r ∈ l, r.dataVersion.isSome) →
      (∀ r ∈ l, r.minecraftVersion ≠ M) →
      indexEntries ed l acc = .ok d →
      lookupKey d.byMinecraftVersion M
        = majorFold (lookupKey acc.byMinecraftVersion M) (seriesOf ed l M) := by
  intro l
  induction l with
  | nil =>
    intro acc d _ _ hok
    cases hok
    rfl
  | cons r rest ih =>
    intro acc d hsome hm hok
    obtain ⟨dv, hdv⟩ := Option.isSome_iff_exists.1 (hsome r (List.mem_cons_self _ _))
    unfold indexEntries at hok
    rw [hdv] at hok
    have hrest := ih (buildStep ed acc r dv) d
      (fun w hw => hsome w (List.mem_cons_of_mem _ hw))
      (fun w hw => hm w (List.mem_cons_of_mem _ hw)) hok
    have hup : lookupKey (upsertKey acc.byMinecraftVersion r.minecraftVersion
        (mkVersion ed r dv)) M = lookupKey acc.byMinecraftVersion M :=
      lookupKey_upsertKey_ne _ _ _ _ (hm r (List.mem_cons_self _ _))
    by_cases hmaj : r.majorVersion = M
    · have hbs : lookupKey (buildStep ed acc r dv).byMinecraftVersion M
          = majorFoldStep (lookupKey acc.byMinecraftVersion M) (mkVersion ed r dv) := by
        show lookupKey (majorUpdate (upsertKey acc.byMinecraftVersion r.minecraftVersion
          (mkVersion ed r dv)) r.majorVersion (mkVersion ed r dv)) M = _
        rw [hmaj, lookupKey_majorUpdate_self, hup]
      have hser : seriesOf ed (r :: rest) M
          = mkVersion ed r dv :: seriesOf ed rest M := by
        unfold seriesOf
        rw [List.filter_cons]
        simp [hmaj, hdv, List.filterMap_cons]
      rw [hrest, hbs, hser]
      rfl
    · have hbs : lookupKey (buildStep ed acc r dv).byMinecraftVersion M
          = lookupKey acc.byMinecraftVersion M := by
        show lookupKey (majorUpdate (upsertKey acc.byMinecraftVersion r.minecraftVersion
          (mkVersion ed r dv)) r.majorVersion (mkVersion ed r dv)) M = _
        rw [lookupKey_majorUpdate_ne _ _ _ _ hmaj, hup]
      have hser : seriesOf ed (r :: rest) M = seriesOf ed rest M := by
        unfold seriesOf
        rw [List.filter_cons]
        simp [hmaj]
      rw [hrest, hbs, hser]

theorem majorFoldStep_some_eq (e v : Version) :
    majorFoldStep (some e) v = if majorCond v e = true then some v else some e := rfl

theorem majorFold_some (vs : List Version) (e : Version) :
    ∃ e2, majorFold (some e) vs = some e2 ∧ (e2 = e ∨ e2 ∈ vs) := by
  induction vs generalizing e with
  | nil => exact ⟨e, rfl, Or.inl rfl⟩
  | cons v rest ih =>
    have hstep : majorFold (some e) (v :: rest) = majorFold (majorFoldStep (some e) v) rest :=
      rfl
    cases hc : majorCond v e
    · have hs : majorFoldStep (some e) v = some e := by
        rw [majorFoldStep_some_eq, hc]
        simp
      rw [hstep, hs]
      obtain ⟨e2, h1, h2⟩ := ih e
      refine ⟨e2, h1, ?_⟩
      rcases h2 with h | h
      · exact Or.inl h
      · exact Or.inr (List.mem_cons_of_mem _ h)
    · have hs : majorFoldStep (some e) v = some v := by
        rw [majorFoldStep_some_eq, hc]
        simp
      rw [hstep, hs]
      obtain ⟨e2, h1, h2⟩ := ih v
      refine ⟨e2, h1, ?_⟩
      rcases h2 with h | h
      · exact Or.inr (h ▸ List.mem_cons_self _ _)
      · exact Or.inr (List.mem_cons_of_mem _ h)

theorem majorCond_false_of_le (v e : Version) (h : v.dataVersion ≤ e.dataVersion) :
    majorCond v e = false := by
  have : ¬(e.dataVersion < v.dataVersion) := by omega
  simp [majorCond, this]

theorem majorFold_stay (vs : List Version) (Mv : Version)
    (hbound : ∀ w ∈ vs, w.dataVersion ≤ Mv.dataVersion) :
    majorFold (some Mv) vs = some Mv := by
  induction vs with
  | nil => rfl
  | cons w rest ih =>
    show majorFold (majorFoldStep (some Mv) w) rest = some Mv
    rw [show majorFoldStep (some Mv) w = some Mv from by
      show (if majorCond w Mv = true then some w else some Mv) = some Mv
      rw [majorCond_false_of_le w Mv (hbound w (List.mem_cons_self _ _))]
      simp]
    exact ih (fun w2 hw2 => hbound w2 (List.mem_cons_of_mem _ hw2))

theorem majorFold_release_max (vs : List Version) (Mv : Version)
    (hMv : Mv ∈ vs) (hrel : Mv.releaseType = "release")
    (hbound : ∀ w ∈ vs, w.dataVersion ≤ Mv.dataVersion)
    (huniq : ∀ w ∈ vs, w.dataVersion = Mv.dataVersion → w = Mv) :
    ∀ st, (st = none ∨ ∃ e, st = some e ∧ e.dataVersion ≤ Mv.dataVersion
      ∧ (e.dataVersion = Mv.dataVersion → e = Mv)) →
    majorFold st vs = some Mv := by
  induction vs with
  | nil => exact absurd hMv (List.not_mem_nil Mv)
  | cons w rest ih =>
    intro st hst
    show majorFold (majorFoldStep st w) rest = some Mv
    have hwb := hbound w (List.mem_cons_self _ _)
    have hwu := huniq w (List.mem_cons_self _ _)
    rcases List.mem_cons.1 hMv with heq | hMrest
    · subst heq
      have hstep : majorFoldStep st Mv = some Mv := by
        rcases hst with h | ⟨e, he, heb, heu⟩
        · subst h; rfl
        · subst he
          rw [majorFoldStep_some_eq]
          by_cases hde : e.dataVersion = Mv.dataVersion
          · rw [heu hde, majorCond_false_of_le Mv Mv le_rfl]
            simp
          · have hcnd : majorCond Mv e = true := by
              simp [majorCond, hrel]
              omega
            rw [hcnd]
            simp
      rw [hstep]
      exact majorFold_stay rest Mv (fun w2 hw2 => hbound w2 (List.mem_cons_of_mem _ hw2))
    · apply ih hMrest (fun w2 hw2 => hbound w2 (List.mem_cons_of_mem _ hw2))
        (fun w2 hw2 => huniq w2 (List.mem_cons_of_mem _ hw2))
      right
      rcases hst with h | ⟨e, he, heb, heu⟩
      · subst h
        exact ⟨w, rfl, hwb, hwu⟩
      · subst he
        cases hc : majorCond w e
        · exact ⟨e, by rw [majorFoldStep_some_eq, hc]; simp, heb, heu⟩
        · exact ⟨w, by rw [majorFoldStep_some_eq, hc]; simp, hwb, hwu⟩

theorem majorFold_norelease_max (vs : List Version) (Mv : Version)
    (hnr : ∀ w ∈ vs, w.releaseType ≠ "release")
    (hMv : Mv ∈ vs)
    (hbound : ∀ w ∈ vs, w.dataVersion ≤ Mv.dataVersion)
    (huniq : ∀ w ∈ vs, w.dataVersion = Mv.dataVersion → w = Mv) :
    ∀ st, (st = none ∨ ∃ e, st = some e ∧ e.releaseType ≠ "release"
      ∧ e.dataVersion ≤ Mv.dataVersion ∧ (e.dataVersion = Mv.dataVersion → e = Mv)) →
    majorFold st vs = some Mv := by
  induction vs with
  | nil => exact absurd hMv (List.not_mem_nil Mv)
  | cons w rest ih =>
    intro st hst
    show majorFold (majorFoldStep st w) rest = some Mv
    have hwb := hbound w (List.mem_cons_self _ _)
    have hwu := huniq w (List.mem_cons_self _ _)
    have hwn := hnr w (List.mem_cons_self _ _)
    rcases List.mem_cons.1 hMv with heq | hMrest
    · subst heq
      have hstep : majorFoldStep st Mv = some Mv := by
        rcases hst with h | ⟨e, he, hen, heb, heu⟩
        · subst h; rfl
        · subst he
          rw [majorFoldStep_some_eq]
          by_cases hde : e.dataVersion = Mv.dataVersion
          · rw [heu hde, majorCond_false_of_le Mv Mv le_rfl]
            simp
          · have hcnd : majorCond Mv e = true := by
              have hne : (e.releaseType == "release") = false := by
                simpa using hen
              simp [majorCond, hne]
              omega
            rw [hcnd]
            simp
      rw [hstep]
      exact majorFold_stay rest Mv (fun w2 hw2 => hbound w2 (List.mem_cons_of_mem _ hw2))
    · apply ih (fun w2 hw2 => hnr w2 (List.mem_cons_of_mem _ hw2)) hMrest
        (fun w2 hw2 => hbound w2 (List.mem_cons_of_mem _ hw2))
        (fun w2 hw2 => huniq w2 (List.mem_cons_of_mem _ hw2))
      right
      rcases hst with h | ⟨e, he, hen, heb, heu⟩
      · subst h
        exact ⟨w, rfl, hwn, hwb, hwu⟩
      · subst he
        cases hc : majorCond w e
        · exact ⟨e, by rw [majorFoldStep_some_eq, hc]; simp, hen, heb, heu⟩
        · exact ⟨w, by rw [majorFoldStep_some_eq, hc]; simp, hwn, hwb, hwu⟩

theorem lookup_major_eq_majorFold (ed : Edition) (raws : List ProtocolVersionInfo)
    (M : String) (hm : ∀ r ∈ synthesizeDataVersions raws, r.minecraftVersion ≠ M) :
    (loadAndIndexVersions ed raws).map (fun d => lookupKey d.byMinecraftVersion M)
      = .ok (majorFold none (seriesOf ed (synthesizeDataVersions raws) M)) := by
  obtain ⟨d0, hd0⟩ := indexEntries_isOk ed (synthesizeDataVersions raws) emptyVersionData
    (synthesize_isSome raws)
  have := lookup_indexEntries_major ed M (synthesizeDataVersions raws) emptyVersionData d0
    (synthesize_isSome raws) hm hd0
  unfold loadAndIndexVersions
  rw [hd0]
  show Except.ok (lookupKey (sortVersionLists d0).byMinecraftVersion M) = _
  rw [show (sortVersionLists d0).byMinecraftVersion = d0.byMinecraftVersion from rfl]
  rw [this]
  rfl

/-- Counterexample for C2, at two concrete registries fed through the
full pipeline.  First registry: the series holds a newer snapshot
(data version 20, higher protocol) and an older release (data version
10); the claim says the stored major entry must be the newest release,
but the code keeps the snapshot.  Second registry: the release (data
version 10) is processed first and the strictly newer snapshot (data
version 20) second; the claim says the entry is upgraded exactly when
the candidate's data version is strictly greater, but the code does not
upgrade — the stored entry remains the release. -/
theorem majorKey_counterexample :
    ((loadAndIndexVersions .pc [sampleSnapshotRaw, sampleReleaseRaw]).map
        (fun d => lookupKey d.byMinecraftVersion "1.0")
      = .ok (some (mkVersion .pc sampleSnapshotRaw 20))
    ∧ (mkVersion .pc sampleSnapshotRaw 20).releaseType ≠ "release"
    ∧ mkVersion .pc sampleReleaseRaw 10
        ∈ seriesOf .pc (synthesizeDataVersions [sampleSnapshotRaw, sampleReleaseRaw]) "1.0"
    ∧ (mkVersion .pc sampleReleaseRaw 10).releaseType = "release")
    ∧ ((loadAndIndexVersions .pc
        [{ minecraftVersion := "2.0.1", version := 100, dataVersion := some 10,
           usesNetty := true, majorVersion := "2.0", releaseType := "release" },
         { minecraftVersion := "2.0.2", version := 50, dataVersion := some 20,
           usesNetty := true, majorVersion := "2.0", releaseType := "snapshot" }]).map
        (fun d => lookupKey d.byMinecraftVersion "2.0")
      = .ok (some (mkVersion .pc
          { minecraftVersion := "2.0.1", version := 100, dataVersion := some 10,
            usesNetty := true, majorVersion := "2.0", releaseType := "release" } 10))
    ∧ (10 : Int) < 20) := by
  constructor
  · refine ⟨by decide, by decide, by decide, by decide⟩
  · exact ⟨by decide, by decide⟩

/-- C2 (amended): the stored major-key entry is governed by the majorCond
rule — upgrade exactly when the candidate's data version is strictly
greater AND (the candidate is a release OR the existing entry is not a
release) — formalized as the majorFold of the series.  Consequently,
when no entry of the series shares the full version string with the
major key: the stored entry always belongs to the series; if the entry
of strictly maximal data version is a release, it is stored; and if the
series holds no release at all, the entry of strictly maximal data
version is stored.  (The newest release is not stored in general — see
the counterexample.) -/
theorem majorKey_entry_spec (ed : Edition) (raws : List ProtocolVersionInfo) (M : String)
    (hm : ∀ r ∈ synthesizeDataVersions raws, r.minecraftVersion ≠ M) :
    ((loadAndIndexVersions ed raws).map (fun d => lookupKey d.byMinecraftVersion M)
      = .ok (majorFold none (seriesOf ed (synthesizeDataVersions raws) M)))
    ∧ (seriesOf ed (synthesizeDataVersions raws) M ≠ [] →
      ∃ v, majorFold none (seriesOf ed (synthesizeDataVersions raws) M) = some v
        ∧ v ∈ seriesOf ed (synthesizeDataVersions raws) M)
    ∧ (∀ Mv ∈ seriesOf ed (synthesizeDataVersions raws) M, Mv.releaseType = "release" →
      (∀ w ∈ seriesOf ed (synthesizeDataVersions raws) M, w.dataVersion ≤ Mv.dataVersion) →
      (∀ w ∈ seriesOf ed (synthesizeDataVersions raws) M,
        w.dataVersion = Mv.dataVersion → w = Mv) →
      majorFold none (seriesOf ed (synthesizeDataVersions raws) M) = some Mv)
    ∧ ((∀ w ∈ seriesOf ed (synthesizeDataVersions raws) M, w.releaseType ≠ "release") →
      ∀ Mv ∈ seriesOf ed (synthesizeDataVersions raws) M,
      (∀ w ∈ seriesOf ed (synthesizeDataVersions raws) M, w.dataVersion ≤ Mv.dataVersion) →
      (∀ w ∈ seriesOf ed (synthesizeDataVersions raws) M,
        w.dataVersion = Mv.dataVersion → w = Mv) →
      majorFold none (seriesOf ed (synthesizeDataVersions raws) M) = some Mv) := by
  refine ⟨lookup_major_eq_majorFold ed raws M hm, ?_, ?_, ?_⟩
  · intro hne
    cases hvs : seriesOf ed (synthesizeDataVersions raws) M with
    | nil => exact absurd hvs hne
    | cons v rest =>
      show ∃ v2, majorFold (majorFoldStep none v) rest = some v2 ∧ _
      obtain ⟨e2, h1, h2⟩ := majorFold_some rest v
      refine ⟨e2, h1, ?_⟩
      rcases h2 with h | h
      · exact h ▸ List.mem_cons_self _ _
      · exact List.mem_cons_of_mem _ h
  · intro Mv hMv hrel hbound huniq
    exact majorFold_release_max _ Mv hMv hrel hbound huniq none (Or.inl rfl)
  · intro hnr Mv hMv hbound huniq
    exact majorFold_norelease_max _ Mv hnr hMv hbound huniq none (Or.inl rfl)

/-- A snapshot older than the release of its series (for the C2
witness, where the strict maximum of the series is the release). -/
def sampleOldSnapshotRaw : ProtocolVersionInfo :=
  { minecraftVersion := "3.0.1", version := 100, dataVersion := some 5,
    usesNetty := true, majorVersion := "3.0", releaseType := "snapshot" }

/-- The release that is the strict maximum of its series. -/
def sampleNewReleaseRaw : ProtocolVersionInfo :=
  { minecraftVersion := "3.0.2", version := 50, dataVersion := some 10,
    usesNetty := true, majorVersion := "3.0", releaseType := "release" }

/-- Witness for C2: when the strictly newest entry of the series is a
release, it ends up stored under the major key. -/
theorem majorKey_entry_spec_witness :
    (loadAndIndexVersions .pc [sampleOldSnapshotRaw, sampleNewReleaseRaw]).map
        (fun d => lookupKey d.byMinecraftVersion "3.0")
      = .ok (some (mkVersion .pc sampleNewReleaseRaw 10)) := by
  have h := majorKey_entry_spec .pc [sampleOldSnapshotRaw, sampleNewReleaseRaw] "3.0"
    (by decide)
  rw [h.1]
  rw [h.2.2.1 (mkVersion .pc sampleNewReleaseRaw 10) (by decide) (by decide)
    (by decide) (by decide)]

/-! ## C6 — supported version enumeration

Order theory of the component-wise comparator, then the construction
invariants of by_minecraft_version needed to show every emitted string
resolves. -/

theorem cmpPartList_cons_cons (x y : Nat) (xs ys : List Nat) :
    cmpPartList (x :: xs) (y :: ys)
      = match compare x y with
        | .eq => cmpPartList xs ys
        | o => o := rfl

theorem cmpPartList_cons_nil (x : Nat) (xs : List Nat) :
    cmpPartList (x :: xs) []
      = match compare x 0 with
        | .eq => cmpPartList xs []
        | o => o := rfl

theorem cmpZerosAgainst_cons (b : Nat) (bs : List Nat) :
    cmpZerosAgainst (b :: bs)
      = match compare 0 b with
        | .eq => cmpZerosAgainst bs
        | o => o := rfl

theorem cmpZerosAgainst_ne_gt (l : List Nat) : cmpZerosAgainst l ≠ .gt := by
  induction l with
  | nil => decide
  | cons b bs ih =>
    rw [cmpZerosAgainst_cons]
    cases hc : compare 0 b with
    | lt => intro h; exact Ordering.noConfusion h
    | eq => exact ih
    | gt => exact absurd (Nat.compare_eq_gt.1 hc) (by omega)

theorem cmpPartList_trans (a : List Nat) :
    ∀ b c, cmpPartList a b ≠ .gt → cmpPartList b c ≠ .gt → cmpPartList a c ≠ .gt := by
  induction a with
  | nil => intro b c _ _; exact cmpZerosAgainst_ne_gt c
  | cons x xs ih =>
    intro b c h1 h2
    cases b with
    | nil =>
      rw [cmpPartList_cons_nil] at h1
      cases hx : compare x 0 with
      | lt => exact absurd (Nat.compare_eq_lt.1 hx) (by omega)
      | gt => rw [hx] at h1; exact absurd rfl h1
      | eq =>
        rw [hx] at h1
        have hx0 : x = 0 := Nat.compare_eq_eq.1 hx
        subst hx0
        cases c with
        | nil =>
          rw [cmpPartList_cons_nil, hx]
          exact h1
        | cons z zs =>
          rw [cmpPartList_cons_cons]
          cases hz : compare 0 z with
          | lt => intro h; exact Ordering.noConfusion h
          | gt => exact absurd (Nat.compare_eq_gt.1 hz) (by omega)
          | eq =>
            show cmpPartList xs zs ≠ .gt
            exact ih [] zs h1 (cmpZerosAgainst_ne_gt zs)
    | cons y ys =>
      cases c with
      | nil =>
        rw [cmpPartList_cons_nil] at h2
        cases hy : compare y 0 with
        | lt => exact absurd (Nat.compare_eq_lt.1 hy) (by omega)
        | gt => rw [hy] at h2; exact absurd rfl h2
        | eq =>
          rw [hy] at h2
          have hy0 : y = 0 := Nat.compare_eq_eq.1 hy
          subst hy0
          rw [cmpPartList_cons_cons] at h1
          cases hx : compare x 0 with
          | lt => exact absurd (Nat.compare_eq_lt.1 hx) (by omega)
          | gt => rw [hx] at h1; exact absurd rfl h1
          | eq =>
            rw [hx] at h1
            rw [cmpPartList_cons_nil, hx]
            show cmpPartList xs [] ≠ .gt
            exact ih ys [] h1 h2
      | cons z zs =>
        rw [cmpPartList_cons_cons] at h1 h2 ⊢
        cases hxy : compare x y with
        | gt => rw [hxy] at h1; exact absurd rfl h1
        | lt =>
          have hyz : y ≤ z := by
            cases hyz2 : compare y z with
            | gt => rw [hyz2] at h2; exact absurd rfl h2
            | lt => exact le_of_lt (Nat.compare_eq_lt.1 hyz2)
            | eq => exact le_of_eq (Nat.compare_eq_eq.1 hyz2)
          have hxz : x < z := by
            have := Nat.compare_eq_lt.1 hxy
            omega
          rw [Nat.compare_eq_lt.2 hxz]
          intro h
          exact Ordering.noConfusion h
        | eq =>
          rw [hxy] at h1
          have hxy2 : x = y := Nat.compare_eq_eq.1 hxy
          cases hyz : compare y z with
          | gt => rw [hyz] at h2; exact absurd rfl h2
          | lt =>
            have hxz : x < z := by
              have := Nat.compare_eq_lt.1 hyz
              omega
            rw [Nat.compare_eq_lt.2 hxz]
            intro h
            exact Ordering.noConfusion h
          | eq =>
            rw [hyz] at h2
            have hxz : x = z := by
              have := Nat.compare_eq_eq.1 hyz
              omega
            rw [Nat.compare_eq_eq.2 hxz]
            show cmpPartList xs zs ≠ .gt
            exact ih ys zs h1 h2

theorem cmpPartList_nil_swap (l : List Nat) :
    cmpPartList l [] = (cmpZerosAgainst l).swap := by
  induction l with
  | nil => decide
  | cons a xs ih =>
    rw [cmpPartList_cons_nil, cmpZerosAgainst_cons]
    by_cases ha : a = 0
    · subst ha
      rw [show compare 0 0 = Ordering.eq from rfl]
      exact ih
    · rw [Nat.compare_eq_gt.2 (by omega), Nat.compare_eq_lt.2 (by omega)]
      rfl

theorem cmpPartList_swap (a : List Nat) :
    ∀ b, cmpPartList b a = (cmpPartList a b).swap := by
  induction a with
  | nil =>
    intro b
    rw [cmpPartList_nil_swap]
    rfl
  | cons x xs ih =>
    intro b
    cases b with
    | nil =>
      rw [cmpPartList_nil_swap]
      rw [show cmpPartList [] (x :: xs) = cmpZerosAgainst (x :: xs) from rfl]
      rw [Ordering.swap_swap]
    | cons y ys =>
      rw [cmpPartList_cons_cons, cmpPartList_cons_cons]
      have hsw : compare y x = (compare x y).swap := by
        rcases Nat.lt_trichotomy x y with h | h | h
        · rw [Nat.compare_eq_lt.2 h, Nat.compare_eq_gt.2 h]
          rfl
        · subst h
          rw [Nat.compare_eq_eq.2 rfl]
          rfl
        · rw [Nat.compare_eq_gt.2 h, Nat.compare_eq_lt.2 h]
          rfl
      rw [hsw]
      cases hxy : compare x y with
      | lt => rfl
      | gt => rfl
      | eq => exact ih ys

instance : IsTrans String verStrLe :=
  ⟨fun _ _ _ h1 h2 => cmpPartList_trans _ _ _ h1 h2⟩

instance : IsTotal String verStrLe := by
  constructor
  intro a b
  by_cases h : verStrCmp a b = .gt
  · right
    show cmpPartList (versionParts b) (versionParts a) ≠ .gt
    rw [cmpPartList_swap (versionParts a) (versionParts b)]
    rw [show cmpPartList (versionParts a) (versionParts b) = verStrCmp a b from rfl, h]
    decide
  · exact Or.inl h

/-- The construction invariant of by_minecraft_version: every stored
pair is keyed by its value's full version string or by its value's
major version string, and the full version string of every stored value
is itself a key of the map. -/
def mcvInvariant (m : List (String × Version)) : Prop :=
  (∀ p ∈ m, p.2.minecraftVersion = p.1 ∨ p.2.majorVersion = p.1)
  ∧ (∀ p ∈ m, (lookupKey m p.2.minecraftVersion).isSome)

theorem mcvInvariant_upsert (m : List (String × Version)) (v : Version)
    (hinv : mcvInvariant m) : mcvInvariant (upsertKey m v.minecraftVersion v) := by
  constructor
  · intro p hp
    rcases mem_upsertKey m _ _ p hp with h | h
    · exact hinv.1 p h
    · subst h
      exact Or.inl rfl
  · intro p hp
    rcases mem_upsertKey m _ _ p hp with h | h
    · exact lookupKey_isSome_upsertKey _ _ _ _ (hinv.2 p h)
    · subst h
      rw [lookupKey_upsertKey_self]
      rfl

theorem mcvInvariant_majorUpdate (m : List (String × Version)) (v : Version)
    (hinv : mcvInvariant m) (hsome : (lookupKey m v.minecraftVersion).isSome) :
    mcvInvariant (majorUpdate m v.majorVersion v) := by
  have hup : mcvInvariant (upsertKey m v.majorVersion v) := by
    constructor
    · intro p hp
      rcases mem_upsertKey m _ _ p hp with h | h
      · exact hinv.1 p h
      · subst h
        exact Or.inr rfl
    · intro p hp
      rcases mem_upsertKey m _ _ p hp with h | h
      · exact lookupKey_isSome_upsertKey _ _ _ _ (hinv.2 p h)
      · subst h
        exact lookupKey_isSome_upsertKey _ _ _ _ hsome
  unfold majorUpdate
  cases lookupKey m v.majorVersion with
  | none => exact hup
  | some e =>
    cases hc : majorCond v e
    · simpa [hc] using hinv
    · simpa [hc] using hup

theorem mcvInvariant_indexEntries (ed : Edition) :
    ∀ (l : List ProtocolVersionInfo) (acc : VersionData) (d : VersionData),
      indexEntries ed l acc = .ok d → mcvInvariant acc.byMinecraftVersion →
      mcvInvariant d.byMinecraftVersion := by
  intro l
  induction l with
  | nil =>
    intro acc d hok hinv
    cases hok
    exact hinv
  | cons r rest ih =>
    intro acc d hok hinv
    unfold indexEntries at hok
    cases hdv : r.dataVersion with
    | none => rw [hdv] at hok; exact absurd hok (by simp)
    | some dv =>
      rw [hdv] at hok
      apply ih (buildStep ed acc r dv) d hok
      show mcvInvariant (majorUpdate (upsertKey acc.byMinecraftVersion
        r.minecraftVersion (mkVersion ed r dv)) r.majorVersion (mkVersion ed r dv))
      have h1 : mcvInvariant (upsertKey acc.byMinecraftVersion
          (mkVersion ed r dv).minecraftVersion (mkVersion ed r dv)) :=
        mcvInvariant_upsert _ _ hinv
      have h2 := mcvInvariant_majorUpdate _ (mkVersion ed r dv) h1
        (by rw [show (mkVersion ed r dv).minecraftVersion = r.minecraftVersion from rfl,
              lookupKey_upsertKey_self]
            rfl)
      exact h2

theorem mcvInvariant_of_load (ed : Edition) (raws : List ProtocolVersionInfo)
    (d : VersionData) (hld : loadAndIndexVersions ed raws = .ok d) :
    mcvInvariant d.byMinecraftVersion := by
  unfold loadAndIndexVersions at hld
  cases hie : indexEntries ed (synthesizeDataVersions raws) emptyVersionData with
  | error e => rw [hie] at hld; exact absurd hld (by simp [Except.map])
  | ok d0 =>
    rw [hie] at hld
    have hd : d = sortVersionLists d0 := by
      simp [Except.map] at hld
      exact hld.symm
    subst hd
    rw [show (sortVersionLists d0).byMinecraftVersion = d0.byMinecraftVersion from rfl]
    exact mcvInvariant_indexEntries ed _ emptyVersionData d0 hie
      ⟨fun p hp => absurd hp (List.not_mem_nil p), fun p hp => absurd hp (List.not_mem_nil p)⟩

theorem strStartsWith_append_self (s : String) (t : String) :
    strStartsWith (t ++ s) t = true := by
  show List.isPrefixOf t.data (t ++ s).data = true
  rw [String.data_append]
  induction t.data with
  | nil => simp [List.isPrefixOf]
  | cons c cs ih => simp [List.isPrefixOf, ih]

theorem strStartsWith_bedrock_not_pc (s : String) :
    strStartsWith ("bedrock_" ++ s) "pc_" = false := by
  show List.isPrefixOf "pc_".data ("bedrock_" ++ s).data = false
  rw [String.data_append]
  show List.isPrefixOf ['p', 'c', '_']
    (['b', 'e', 'd', 'r', 'o', 'c', 'k', '_'] ++ s.data) = false
  simp [List.isPrefixOf]

theorem strDrop_append_of_length (s : String) (t : String) :
    strDrop (t ++ s) t.data.length = s := by
  show String.mk ((t ++ s).data.drop t.data.length) = s
  rw [String.data_append, List.drop_left]

theorem parseVersionString_pc_token (s : String) :
    parseVersionString ("pc_" ++ s) = (.pc, s) := by
  unfold parseVersionString
  rw [strStartsWith_append_self s "pc_"]
  rw [show (3 : Nat) = ("pc_" : String).data.length from rfl,
    strDrop_append_of_length s "pc_"]
  simp

theorem parseVersionString_bedrock_token (s : String) :
    parseVersionString ("bedrock_" ++ s) = (.bedrock, s) := by
  unfold parseVersionString
  rw [strStartsWith_bedrock_not_pc s]
  rw [strStartsWith_append_self s "bedrock_"]
  rw [show (8 : Nat) = ("bedrock_" : String).data.length from rfl,
    strDrop_append_of_length s "bedrock_"]
  simp

theorem parseVersionString_plain (s : String)
    (h1 : strStartsWith s "pc_" = false) (h2 : strStartsWith s "bedrock_" = false) :
    parseVersionString s = (.pc, s) := by
  unfold parseVersionString
  rw [h1, h2]
  simp

theorem resolveVersion_direct_hit (R : Raws) (ed : Edition) (d : VersionData)
    (hld : loadAndIndexVersions ed (R.get ed) = .ok d) (str s : String)
    (hparse : parseVersionString str = (ed, s)) (w : Version)
    (hlook : lookupKey d.byMinecraftVersion s = some w)
    (hguard : w.minecraftVersion = s ∨ w.majorVersion = s) :
    resolveVersion R str = .ok w := by
  have hgv : getVersionDataE R ed = .ok d := by
    unfold getVersionDataE
    rw [hld]
  simp only [resolveVersion, hparse, hgv, hlook]
  simp [hguard]

/-- Counterexample for C6: in a registry where the major-series key
"1.0" stores the version "1.0.1", get_supported_versions emits "1.0.1"
twice — once for its own key and once for the major key, because the
filter inspects the stored value's version string and not the map key —
so a specific version does not appear exactly once. -/
theorem supportedVersions_counterexample :
    getSupportedVersionsE sampleRaws .pc = .ok ["1.0.1", "1.0.1", "1.0.2"]
    ∧ List.count "1.0.1" ["1.0.1", "1.0.1", "1.0.2"] = 2 := by
  constructor <;> decide

/-- C6 (amended): the emitted list is sorted ascending by the
component-wise numeric comparator; every emitted string contains a dot
and is the full version string of some value stored in
by_minecraft_version (a string stored both under its own key and under
a major key is emitted once per key — duplicates are possible); and
every emitted string that does not itself start with an edition token
resolves successfully when prefixed with the edition token (for the PC
edition also unprefixed), to a version whose full or major version
string equals it. -/
theorem supportedVersions_spec (R : Raws) (ed : Edition) (out : List String)
    (hout : getSupportedVersionsE R ed = .ok out)
    (hpfx : ∀ s ∈ out, strStartsWith s "pc_" = false
      ∧ strStartsWith s "bedrock_" = false) :
    List.Pairwise verStrLe out
    ∧ (∀ s ∈ out, strContainsChar s '.' = true)
    ∧ (∀ s ∈ out, ∃ d, loadAndIndexVersions ed (R.get ed) = .ok d
        ∧ ∃ p ∈ d.byMinecraftVersion, (p.2).minecraftVersion = s)
    ∧ (∀ s ∈ out, ∃ w, resolveVersion R (editionToken ed ++ "_" ++ s) = .ok w
        ∧ (w.minecraftVersion = s ∨ w.majorVersion = s))
    ∧ (ed = .pc → ∀ s ∈ out, ∃ w, resolveVersion R s = .ok w
        ∧ (w.minecraftVersion = s ∨ w.majorVersion = s)) := by
  unfold getSupportedVersionsE at hout
  cases hgv : getVersionDataE R ed with
  | error e => rw [hgv] at hout; exact absurd hout (by simp)
  | ok d =>
    rw [hgv] at hout
    have hld : loadAndIndexVersions ed (R.get ed) = .ok d := by
      unfold getVersionDataE at hgv
      cases hie : loadAndIndexVersions ed (R.get ed) with
      | error e => rw [hie] at hgv; exact absurd hgv (by simp)
      | ok d2 =>
        rw [hie] at hgv
        cases hgv
        rfl
    have hout2 : out = List.insertionSort verStrLe
        (((d.byMinecraftVersion.map Prod.snd).filter
          (fun v => strContainsChar v.minecraftVersion '.')).map
            (fun v => v.minecraftVersion)) := by
      cases hout
      rfl
    have hmem : ∀ s ∈ out, ∃ p ∈ d.byMinecraftVersion,
        (p.2).minecraftVersion = s ∧ strContainsChar s '.' = true := by
      intro s hs
      rw [hout2, List.mem_insertionSort] at hs
      obtain ⟨w0, hw0, hw0s⟩ := List.mem_map.1 hs
      have hw0f := List.mem_of_mem_filter hw0
      have hdot := List.of_mem_filter hw0
      obtain ⟨p, hp, hpw⟩ := List.mem_map.1 hw0f
      refine ⟨p, hp, by rw [hpw, hw0s], ?_⟩
      rw [← hw0s]
      exact hdot
    have hresolve : ∀ s ∈ out, ∃ w, lookupKey d.byMinecraftVersion s = some w
        ∧ (w.minecraftVersion = s ∨ w.majorVersion = s) := by
      intro s hs
      obtain ⟨p, hp, hps, _⟩ := hmem s hs
      have hinv := mcvInvariant_of_load ed (R.get ed) d hld
      have hsome := hinv.2 p hp
      rw [hps] at hsome
      obtain ⟨w, hw⟩ := Option.isSome_iff_exists.1 hsome
      refine ⟨w, hw, ?_⟩
      have := hinv.1 (s, w) (mem_of_lookupKey _ _ _ hw)
      exact this
    refine ⟨?_, ?_, ?_, ?_, ?_⟩
    · rw [hout2]
      exact List.sorted_insertionSort verStrLe _
    · intro s hs
      obtain ⟨p, hp, hps, hdot⟩ := hmem s hs
      exact hdot
    · intro s hs
      obtain ⟨p, hp, hps, _⟩ := hmem s hs
      exact ⟨d, hld, p, hp, hps⟩
    · intro s hs
      obtain ⟨w, hw, hguard⟩ := hresolve s hs
      refine ⟨w, ?_, hguard⟩
      apply resolveVersion_direct_hit R ed d hld _ s ?_ w hw hguard
      cases ed with
      | pc => exact parseVersionString_pc_token s
      | bedrock => exact parseVersionString_bedrock_token s
    · intro hed s hs
      subst hed
      obtain ⟨w, hw, hguard⟩ := hresolve s hs
      exact ⟨w, resolveVersion_direct_hit R .pc d hld s s
        (parseVersionString_plain s (hpfx s hs).1 (hpfx s hs).2) w hw hguard, hguard⟩

/-- Witness for C6 at the sample registry: the emitted list is sorted by
the comparator and its entries resolve unprefixed on the PC edition. -/
theorem supportedVersions_spec_witness :
    List.Pairwise verStrLe ["1.0.1", "1.0.1", "1.0.2"]
    ∧ ∃ w, resolveVersion sampleRaws "1.0.2" = .ok w
      ∧ (w.minecraftVersion = "1.0.2" ∨ w.majorVersion = "1.0.2") := by
  have h := supportedVersions_spec sampleRaws .pc ["1.0.1", "1.0.1", "1.0.2"]
    (by decide) (by decide)
  exact ⟨h.1, h.2.2.2.2 rfl "1.0.2" (by decide)⟩

/-! ## C7 — resolution idempotence

Every value a resolution can return originates from one raw entry of
the synthesized list (provenance invariant over the three indexes);
with unique full version strings and no major key clashing with the
resolved string, feeding the resolved minecraftVersion back — prefixed
with its edition token, or bare for PC — returns the same Version.
Unprefixed feedback of a Bedrock resolution re-parses as PC and fails,
which is the counterexample. -/

/-- The Version a raw entry contributes after synthesis. -/
def mkvOf (ed : Edition) (r : ProtocolVersionInfo) : Version :=
  mkVersion ed r (r.dataVersion.getD 0)

/-- Provenance: every value stored in any of the three indexes of d is
the contribution of some raw entry of l. -/
def valuesFrom (ed : Edition) (l : List ProtocolVersionInfo) (d : VersionData) : Prop :=
  (∀ p ∈ d.byMinecraftVersion, ∃ r ∈ l, r.dataVersion.isSome ∧ p.2 = mkvOf ed r)
  ∧ (∀ p ∈ d.byMajorVersion, ∀ w ∈ p.2, ∃ r ∈ l, r.dataVersion.isSome ∧ w = mkvOf ed r)
  ∧ (∀ p ∈ d.byProtocolVersion, ∀ w ∈ p.2, ∃ r ∈ l, r.dataVersion.isSome ∧ w = mkvOf ed r)

theorem mem_pushVersion {α : Type} [DecidableEq α] (m : List (α × List Version)) (k : α)
    (v : Version) (p : α × List Version) (hp : p ∈ pushVersion m k v) :
    ∀ w ∈ p.2, (∃ q ∈ m, w ∈ q.2) ∨ w = v := by
  intro w hw
  unfold pushVersion at hp
  cases hm : lookupKey m k with
  | some vs =>
    rw [hm] at hp
    rcases mem_upsertKey m _ _ p hp with h | h
    · exact Or.inl ⟨p, h, hw⟩
    · subst h
      rcases List.mem_append.1 hw with h | h
      · exact Or.inl ⟨(k, vs), mem_of_lookupKey m k vs hm, h⟩
      · simp at h
        exact Or.inr h
  | none =>
    rw [hm] at hp
    rcases mem_upsertKey m _ _ p hp with h | h
    · exact Or.inl ⟨p, h, hw⟩
    · subst h
      simp at hw
      exact Or.inr hw

theorem valuesFrom_indexEntries (ed : Edition) (l : List ProtocolVersionInfo) :
    ∀ (l2 : List ProtocolVersionInfo) (acc : VersionData) (d : VersionData),
      indexEntries ed l2 acc = .ok d → (∀ r ∈ l2, r ∈ l) →
      valuesFrom ed l acc → valuesFrom ed l d := by
  intro l2
  induction l2 with
  | nil =>
    intro acc d hok _ hinv
    cases hok
    exact hinv
  | cons r rest ih =>
    intro acc d hok hsub hinv
    unfold indexEntries at hok
    cases hdv : r.dataVersion with
    | none => rw [hdv] at hok; exact absurd hok (by simp)
    | some dv =>
      rw [hdv] at hok
      apply ih (buildStep ed acc r dv) d hok
        (fun w hw => hsub w (List.mem_cons_of_mem _ hw))
      have hrl : r ∈ l := hsub r (List.mem_cons_self _ _)
      have hv : mkVersion ed r dv = mkvOf ed r := by
        unfold mkvOf
        rw [hdv]
        rfl
      have hsome : r.dataVersion.isSome := by rw [hdv]; rfl
      obtain ⟨h1, h2, h3⟩ := hinv
      refine ⟨?_, ?_, ?_⟩
      · intro p hp
        have hp2 : p ∈ majorUpdate (upsertKey acc.byMinecraftVersion
            r.minecraftVersion (mkVersion ed r dv)) r.majorVersion (mkVersion ed r dv) := hp
        have hcase : p ∈ upsertKey acc.byMinecraftVersion r.minecraftVersion
            (mkVersion ed r dv) ∨ p.2 = mkVersion ed r dv := by
          unfold majorUpdate at hp2
          cases hm : lookupKey (upsertKey acc.byMinecraftVersion r.minecraftVersion
            (mkVersion ed r dv)) r.majorVersion with
          | none =>
            rw [hm] at hp2
            rcases mem_upsertKey _ _ _ p hp2 with h | h
            · exact Or.inl h
            · subst h; exact Or.inr rfl
          | some e =>
            rw [hm] at hp2
            have hp3 : p ∈ (if majorCond (mkVersion ed r dv) e = true
                then upsertKey (upsertKey acc.byMinecraftVersion r.minecraftVersion
                  (mkVersion ed r dv)) r.majorVersion (mkVersion ed r dv)
                else upsertKey acc.byMinecraftVersion r.minecraftVersion
                  (mkVersion ed r dv)) := hp2
            cases hc : majorCond (mkVersion ed r dv) e
            · rw [hc] at hp3
              simp at hp3
              exact Or.inl hp3
            · rw [hc] at hp3
              simp at hp3
              rcases mem_upsertKey _ _ _ p hp3 with h | h
              · exact Or.inl h
              · subst h; exact Or.inr rfl
        rcases hcase with h | h
        · rcases mem_upsertKey _ _ _ p h with h4 | h4
          · exact h1 p h4
          · subst h4
            exact ⟨r, hrl, hsome, hv⟩
        · exact ⟨r, hrl, hsome, by rw [h, hv]⟩
      · intro p hp w hw
        rcases mem_pushVersion acc.byMajorVersion r.majorVersion (mkVersion ed r dv) p hp
            w hw with h | h
        · obtain ⟨q, hq, hwq⟩ := h
          exact h2 q hq w hwq
        · exact ⟨r, hrl, hsome, by rw [h, hv]⟩
      · intro p hp w hw
        rcases mem_pushVersion acc.byProtocolVersion r.version (mkVersion ed r dv) p hp
            w hw with h | h
        · obtain ⟨q, hq, hwq⟩ := h
          exact h3 q hq w hwq
        · exact ⟨r, hrl, hsome, by rw [h, hv]⟩

theorem valuesFrom_load (ed : Edition) (raws : List ProtocolVersionInfo) (d : VersionData)
    (hld : loadAndIndexVersions ed raws = .ok d) :
    valuesFrom ed (synthesizeDataVersions raws) d := by
  unfold loadAndIndexVersions at hld
  cases hie : indexEntries ed (synthesizeDataVersions raws) emptyVersionData with
  | error e => rw [hie] at hld; exact absurd hld (by simp [Except.map])
  | ok d0 =>
    rw [hie] at hld
    have hd : d = sortVersionLists d0 := by
      simp [Except.map] at hld
      exact hld.symm
    subst hd
    have h0 := valuesFrom_indexEntries ed (synthesizeDataVersions raws)
      (synthesizeDataVersions raws) emptyVersionData d0 hie (fun _ h => h)
      ⟨fun p hp => absurd hp (List.not_mem_nil p),
       fun p hp => absurd hp (List.not_mem_nil p),
       fun p hp => absurd hp (List.not_mem_nil p)⟩
    obtain ⟨h1, h2, h3⟩ := h0
    refine ⟨h1, ?_, ?_⟩
    · intro p hp w hw
      obtain ⟨q, hq, hqp⟩ := List.mem_map.1 hp
      rw [← hqp] at hw
      exact h2 q hq w ((List.mem_insertionSort _).1 hw)
    · intro p hp w hw
      obtain ⟨q, hq, hqp⟩ := List.mem_map.1 hp
      rw [← hqp] at hw
      exact h3 q hq w ((List.mem_insertionSort _).1 hw)

theorem resolveByMajor_mem (d : VersionData) (s part : String) (v : Version)
    (h : resolveByMajor d s part = .ok v) : ∃ p ∈ d.byMajorVersion, v ∈ p.2 := by
  unfold resolveByMajor at h
  cases hm : lookupKey d.byMajorVersion part with
  | none => rw [hm] at h; exact absurd h (by simp)
  | some versions =>
    rw [hm] at h
    have h2 : (match versions.head? with
        | some newest => (Except.ok newest : Except McDataError Version)
        | none => .error (.invalidVersion s)) = .ok v := h
    cases hh : versions.head? with
    | none => rw [hh] at h2; exact absurd h2 (by simp)
    | some newest =>
      rw [hh] at h2
      cases h2
      exact ⟨(part, versions), mem_of_lookupKey _ _ _ hm, List.mem_of_mem_head? hh⟩

theorem resolveByProtocol_mem (d : VersionData) (s part : String) (v : Version)
    (h : resolveByProtocol d s part = .ok v) :
    (∃ p ∈ d.byProtocolVersion, v ∈ p.2) ∨ ∃ p ∈ d.byMajorVersion, v ∈ p.2 := by
  unfold resolveByProtocol at h
  cases hi : parseIntStr part with
  | none => rw [hi] at h; exact Or.inr (resolveByMajor_mem d s part v h)
  | some n =>
    rw [hi] at h
    have h2 : (match lookupKey d.byProtocolVersion n with
        | some versions =>
          match versions.find? (fun w : Version => w.releaseType == "release") with
          | some best => (Except.ok best : Except McDataError Version)
          | none =>
            match versions.head? with
            | some best => .ok best
            | none => resolveByMajor d s part
        | none => resolveByMajor d s part) = .ok v := h
    cases hm : lookupKey d.byProtocolVersion n with
    | none => rw [hm] at h2; exact Or.inr (resolveByMajor_mem d s part v h2)
    | some versions =>
      rw [hm] at h2
      have h3 : (match versions.find? (fun w : Version => w.releaseType == "release") with
          | some best => (Except.ok best : Except McDataError Version)
          | none =>
            match versions.head? with
            | some best => .ok best
            | none => resolveByMajor d s part) = .ok v := h2
      cases hf : versions.find? (fun w => w.releaseType == "release") with
      | some best =>
        rw [hf] at h3
        cases h3
        exact Or.inl ⟨(n, versions), mem_of_lookupKey _ _ _ hm,
          List.mem_of_find?_eq_some hf⟩
      | none =>
        rw [hf] at h3
        have h4 : (match versions.head? with
            | some best => (Except.ok best : Except McDataError Version)
            | none => resolveByMajor d s part) = .ok v := h3
        cases hh : versions.head? with
        | some best =>
          rw [hh] at h4
          cases h4
          exact Or.inl ⟨(n, versions), mem_of_lookupKey _ _ _ hm,
            List.mem_of_mem_head? hh⟩
        | none => rw [hh] at h4; exact Or.inr (resolveByMajor_mem d s part v h4)

theorem resolveVersion_mem (R : Raws) (s : String) (v : Version)
    (hres : resolveVersion R s = .ok v) :
    ∃ d, loadAndIndexVersions (parseVersionString s).1
        (R.get (parseVersionString s).1) = .ok d
      ∧ ∃ r ∈ synthesizeDataVersions (R.get (parseVersionString s).1),
        r.dataVersion.isSome ∧ v = mkvOf (parseVersionString s).1 r := by
  unfold resolveVersion at hres
  have hres0 : (match getVersionDataE R (parseVersionString s).1 with
      | .error e => (Except.error e : Except McDataError Version)
      | .ok d =>
        match lookupKey d.byMinecraftVersion (parseVersionString s).2 with
        | some w =>
          if w.minecraftVersion = (parseVersionString s).2
              ∨ w.majorVersion = (parseVersionString s).2
          then .ok w else resolveByProtocol d s (parseVersionString s).2
        | none => resolveByProtocol d s (parseVersionString s).2) = .ok v := hres
  cases hgv : getVersionDataE R (parseVersionString s).1 with
  | error e => rw [hgv] at hres0; exact absurd hres0 (by simp)
  | ok d =>
    rw [hgv] at hres0
    have hld : loadAndIndexVersions (parseVersionString s).1
        (R.get (parseVersionString s).1) = .ok d := by
      unfold getVersionDataE at hgv
      cases hie : loadAndIndexVersions (parseVersionString s).1
        (R.get (parseVersionString s).1) with
      | error e => rw [hie] at hgv; exact absurd hgv (by simp)
      | ok d2 => rw [hie] at hgv; cases hgv; rfl
    have hQ := valuesFrom_load _ _ d hld
    refine ⟨d, hld, ?_⟩
    have hres1 : (match lookupKey d.byMinecraftVersion (parseVersionString s).2 with
        | some w =>
          if w.minecraftVersion = (parseVersionString s).2
              ∨ w.majorVersion = (parseVersionString s).2
          then (Except.ok w : Except McDataError Version)
          else resolveByProtocol d s (parseVersionString s).2
        | none => resolveByProtocol d s (parseVersionString s).2) = .ok v := hres0
    cases hlk : lookupKey d.byMinecraftVersion (parseVersionString s).2 with
    | some w =>
      rw [hlk] at hres1
      have hres2 : (if w.minecraftVersion = (parseVersionString s).2
          ∨ w.majorVersion = (parseVersionString s).2
          then (Except.ok w : Except McDataError Version)
          else resolveByProtocol d s (parseVersionString s).2) = .ok v := hres1
      by_cases hg : w.minecraftVersion = (parseVersionString s).2
          ∨ w.majorVersion = (parseVersionString s).2
      · rw [if_pos hg] at hres2
        cases hres2
        obtain ⟨r, hr, hrs, hrv⟩ := hQ.1 _ (mem_of_lookupKey _ _ _ hlk)
        exact ⟨r, hr, hrs, hrv⟩
      · rw [if_neg hg] at hres2
        rcases resolveByProtocol_mem d s _ v hres2 with ⟨p, hp, hv⟩ | ⟨p, hp, hv⟩
        · exact hQ.2.2 p hp v hv
        · exact hQ.2.1 p hp v hv
    | none =>
      rw [hlk] at hres1
      rcases resolveByProtocol_mem d s _ v hres1 with ⟨p, hp, hv⟩ | ⟨p, hp, hv⟩
      · exact hQ.2.2 p hp v hv
      · exact hQ.2.1 p hp v hv

theorem lookup_mcv_unique (ed : Edition) (K : String) (v : Version) :
    ∀ (l : List ProtocolVersionInfo) (acc : VersionData) (d : VersionData),
      indexEntries ed l acc = .ok d →
      (∀ r ∈ l, r.minecraftVersion = K → r.dataVersion.isSome ∧ mkvOf ed r = v) →
      (∀ r ∈ l, r.majorVersion ≠ K) →
      ((∃ r ∈ l, r.minecraftVersion = K) ∨ lookupKey acc.byMinecraftVersion K = some v) →
      lookupKey d.byMinecraftVersion K = some v := by
  intro l
  induction l with
  | nil =>
    intro acc d hok _ _ hst
    cases hok
    rcases hst with ⟨r, hr, _⟩ | h
    · exact absurd hr (List.not_mem_nil r)
    · exact h
  | cons r rest ih =>
    intro acc d hok h1 h2 hst
    unfold indexEntries at hok
    cases hdv : r.dataVersion with
    | none => rw [hdv] at hok; exact absurd hok (by simp)
    | some dv =>
      rw [hdv] at hok
      apply ih (buildStep ed acc r dv) d hok
        (fun w hw hk => h1 w (List.mem_cons_of_mem _ hw) hk)
        (fun w hw => h2 w (List.mem_cons_of_mem _ hw))
      by_cases hK : r.minecraftVersion = K
      · right
        have hmk : mkVersion ed r dv = v := by
          have := (h1 r (List.mem_cons_self _ _) hK).2
          unfold mkvOf at this
          rw [hdv] at this
          exact this
        show lookupKey (majorUpdate (upsertKey acc.byMinecraftVersion
          r.minecraftVersion (mkVersion ed r dv)) r.majorVersion (mkVersion ed r dv)) K
          = some v
        rw [lookupKey_majorUpdate_ne _ _ _ _ (h2 r (List.mem_cons_self _ _)), hK,
          lookupKey_upsertKey_self, hmk]
      · rcases hst with ⟨r2, hr2, hr2K⟩ | hacc
        · rcases List.mem_cons.1 hr2 with h | h
          · exact absurd (h ▸ hr2K) hK
          · exact Or.inl ⟨r2, h, hr2K⟩
        · right
          show lookupKey (majorUpdate (upsertKey acc.byMinecraftVersion
            r.minecraftVersion (mkVersion ed r dv)) r.majorVersion (mkVersion ed r dv)) K
            = some v
          rw [lookupKey_majorUpdate_ne _ _ _ _ (h2 r (List.mem_cons_self _ _)),
            lookupKey_upsertKey_ne _ _ _ _ hK]
          exact hacc

/-- Counterexample for C7: in a registry whose Bedrock side holds the
release 1.20.0 (and whose PC side is empty), the prefixed string
resolves, but feeding the resolved record's minecraftVersion back into
resolution fails — the bare string re-parses as a PC version — so
resolution is not idempotent for Bedrock results. -/
theorem resolve_idempotent_counterexample :
    resolveVersion sampleBedrockRaws "bedrock_1.20.0"
      = .ok (mkVersion .bedrock sampleBedrockRaw 5)
    ∧ (mkVersion .bedrock sampleBedrockRaw 5).minecraftVersion = "1.20.0"
    ∧ resolveVersion sampleBedrockRaws "1.20.0"
      = .error (.invalidVersion "1.20.0") := by
  refine ⟨by decide, by decide, by decide⟩

/-- C7 (amended): when the synthesized registry of the resolved
edition has pairwise distinct full version strings, none of its major
version strings equals the resolved record's full version string, and
that string does not itself start with an edition token, then feeding
the resolved minecraftVersion back prefixed with its edition token
resolves to the same Version, and for a PC result the bare string does
too.  (Unprefixed feedback of a Bedrock result defaults to the PC
edition and does not return the same Version — see the
counterexample.) -/
theorem resolve_idempotent_spec (R : Raws) (s : String) (v : Version)
    (hres : resolveVersion R s = .ok v)
    (hdup : ∀ x ∈ synthesizeDataVersions (R.get v.edition),
      ∀ y ∈ synthesizeDataVersions (R.get v.edition),
      x.minecraftVersion = y.minecraftVersion → x = y)
    (hmaj : ∀ r ∈ synthesizeDataVersions (R.get v.edition),
      r.majorVersion ≠ v.minecraftVersion)
    (hpfx1 : strStartsWith v.minecraftVersion "pc_" = false)
    (hpfx2 : strStartsWith v.minecraftVersion "bedrock_" = false) :
    resolveVersion R (editionToken v.edition ++ "_" ++ v.minecraftVersion) = .ok v
    ∧ (v.edition = .pc → resolveVersion R v.minecraftVersion = .ok v) := by
  obtain ⟨d, hld, r0, hr0, hr0some, hveq⟩ := resolveVersion_mem R s v hres
  have hedv : v.edition = (parseVersionString s).1 := by rw [hveq]; rfl
  have hmcv : v.minecraftVersion = r0.minecraftVersion := by rw [hveq]; rfl
  rw [← hedv] at hld
  rw [← hedv] at hr0
  rw [← hedv] at hveq
  obtain ⟨d0, hie, hsorted⟩ : ∃ d0, indexEntries v.edition
      (synthesizeDataVersions (R.get v.edition)) emptyVersionData = .ok d0
      ∧ d = sortVersionLists d0 := by
    unfold loadAndIndexVersions at hld
    cases hie : indexEntries v.edition (synthesizeDataVersions (R.get v.edition))
      emptyVersionData with
    | error e => rw [hie] at hld; exact absurd hld (by simp [Except.map])
    | ok d0 =>
      rw [hie] at hld
      refine ⟨d0, rfl, ?_⟩
      simp [Except.map] at hld
      exact hld.symm
  have hlook : lookupKey d.byMinecraftVersion v.minecraftVersion = some v := by
    rw [hsorted]
    rw [show (sortVersionLists d0).byMinecraftVersion = d0.byMinecraftVersion from rfl]
    apply lookup_mcv_unique v.edition v.minecraftVersion v _ emptyVersionData d0 hie
    · intro r hr hrK
      have hrr0 : r = r0 := hdup r hr r0 hr0 (by rw [hrK, hmcv])
      subst hrr0
      exact ⟨hr0some, hveq.symm⟩
    · exact hmaj
    · exact Or.inl ⟨r0, hr0, hmcv.symm⟩
  constructor
  · apply resolveVersion_direct_hit R v.edition d hld _ v.minecraftVersion ?_ v hlook
      (Or.inl rfl)
    cases he : v.edition with
    | pc =>
      rw [show editionToken Edition.pc ++ "_" = "pc_" from rfl]
      exact parseVersionString_pc_token v.minecraftVersion
    | bedrock =>
      rw [show editionToken Edition.bedrock ++ "_" = "bedrock_" from rfl]
      exact parseVersionString_bedrock_token v.minecraftVersion
  · intro hpc
    rw [hpc] at hld
    exact resolveVersion_direct_hit R .pc d hld v.minecraftVersion v.minecraftVersion
      (parseVersionString_plain _ hpfx1 hpfx2) v hlook (Or.inl rfl)

/-- Witness for C7 at the sample PC registry: 1.0.2 resolves to itself
both with and without the pc token. -/
theorem resolve_idempotent_spec_witness :
    resolveVersion sampleRaws
        (editionToken (mkVersion .pc sampleReleaseRaw 10).edition ++ "_"
          ++ (mkVersion .pc sampleReleaseRaw 10).minecraftVersion)
      = .ok (mkVersion .pc sampleReleaseRaw 10)
    ∧ resolveVersion sampleRaws "1.0.2" = .ok (mkVersion .pc sampleReleaseRaw 10) := by
  have h := resolve_idempotent_spec sampleRaws "1.0.2" (mkVersion .pc sampleReleaseRaw 10)
    (by decide) (by decide) (by decide) (by decide) (by decide)
  exact ⟨h.1, h.2 rfl⟩

end McdataRs
